import Mathlib

/-!
# Vite asset tag generation (`vite.go`)

A shallow embedding of `Vite.Assets`: the manifest data model, the recursive
`preloadJS` closure, the two loops over the entry points of the production
branch and the development branch, followed by theorems about the emitted
fragment.

Modelling conventions.
* A Go `map[string]viteManifestEntry` is an association list looked up by key
  (`List.lookup`, first binding wins); every finite map is such a list.
* A `map[string]bool` used as a set is the list of keys that were set to `true`.
* The `strings.Builder` is the list of the chunks written to it, one `Tag` per
  `sb.WriteString` call; `sb.String()` is the concatenation of the rendered chunks.
* The recursion of `preloadJS` is bounded by explicit fuel (`none` = out of fuel);
  `preloadJS_total` shows that `manifest.length + 1` is always enough.
-/

namespace Vite

/-- One manifest entry (`type viteManifestEntry struct`). -/
structure viteManifestEntry where
  File : String
  IsEntry : Bool := false
  Src : String := ""
  CSS : List String := []
  Assets : List String := []
  Imports : List String := []
deriving DecidableEq, Repr

/-- The manifest (`type viteManifest map[string]viteManifestEntry`). -/
abbrev viteManifest := List (String × viteManifestEntry)

/-- The comma-ok map read `entry, ok := manifest[key]`. -/
def viteManifest.get (manifest : viteManifest) (key : String) : Option viteManifestEntry :=
  List.lookup key manifest

/-- One chunk written to the `strings.Builder` by a single `sb.WriteString` call. -/
inductive Tag where
  | reactPreamble (viteDevServer : String)
  | moduleScript (src : String)
  | modulePreload (href : String)
  | stylePreload (href : String)
  | stylesheet (href : String)
deriving DecidableEq, Repr

/-- The text of one written chunk (the format strings of `vite.go`). -/
def Tag.render : Tag → String
  | .reactPreamble viteDevServer =>
      "<script type=\"module\">\n\t\t\timport RefreshRuntime from \"" ++ viteDevServer ++
      "/@react-refresh\";\n\t\t\tRefreshRuntime.injectIntoGlobalHook(window);\n" ++
      "\t\t\twindow.$RefreshReg$ = () => \x7b\x7d;\n" ++
      "\t\t\twindow.$RefreshSig$ = () => (type) => type;\n" ++
      "\t\t\twindow.__vite_plugin_react_preamble_installed__ = true;\n\t\t\t</script>"
  | .moduleScript src => "<script type=\"module\" src=\"" ++ src ++ "\"></script>"
  | .modulePreload href => "<link rel=\"modulepreload\" href=\"" ++ href ++ "\">"
  | .stylePreload href => "<link rel=\"preload\" href=\"" ++ href ++ "\" as=\"style\">"
  | .stylesheet href => "<link rel=\"stylesheet\" href=\"" ++ href ++ "\">"

/-- The builder content `sb.String()`: the written chunks, concatenated in order. -/
def renderAll : List Tag → String
  | [] => ""
  | t :: ts => t.render ++ renderAll ts

/-- Go `strings.HasSuffix(s, suffix)`. -/
def hasSuffix (s suffix : String) : Bool :=
  suffix.data.isSuffixOf s.data

/-- Go `strings.ToLower(s)`, on the ASCII letters (the only characters whose
lower-case form is one of the characters of `".js"`). -/
def toLower (s : String) : String :=
  ⟨s.data.map Char.toLower⟩

/-- The base URL after `if !strings.HasSuffix(baseURL, "/") { baseURL += "/" }`. -/
def normalizeBaseURL (baseURL : String) : String :=
  if hasSuffix baseURL "/" then baseURL else baseURL ++ "/"

/-- The mutable variables of the production branch of `Assets`: the builder and
the three dedup sets. -/
structure ProdState where
  sb : List Tag := []
  includedCSS : List String := []
  includedJSPreload : List String := []
  includedCSSPreload : List String := []
deriving DecidableEq, Repr

/-- The loop `for _, imp := range entry.Imports { preloadJS(imp) }`, over the
closure `f` that is called for each import. -/
def rangeImports (f : String → ProdState → Option ProdState) :
    List String → ProdState → Option ProdState
  | [], st => some st
  | imp :: rest, st =>
    match f imp st with
    | none => none
    | some st1 => rangeImports f rest st1

/-- The recursive closure `preloadJS` of `Assets`; `baseURL` is the normalized base
URL the closure captures. The first argument bounds the recursion depth. -/
def preloadJS (manifest : viteManifest) (baseURL : String) :
    Nat → String → ProdState → Option ProdState
  | 0, _, _ => none
  | fuel + 1, moduleSrc, st =>
    if moduleSrc ∈ st.includedJSPreload then some st
    else
      match manifest.get moduleSrc with
      | none => some st
      | some entry =>
        rangeImports (preloadJS manifest baseURL fuel) entry.Imports
          { st with
            sb := st.sb ++ [Tag.modulePreload (baseURL ++ entry.File)]
            includedJSPreload := st.includedJSPreload ++ [moduleSrc] }

/-- The inner loop of the first pass: one preload-as-style link per CSS file that
is not yet in `includedCSSPreload`. -/
def preloadCSS (baseURL : String) : List String → ProdState → ProdState
  | [], st => st
  | cssFile :: rest, st =>
    if cssFile ∈ st.includedCSSPreload then preloadCSS baseURL rest st
    else
      preloadCSS baseURL rest
        { st with
          sb := st.sb ++ [Tag.stylePreload (baseURL ++ cssFile)]
          includedCSSPreload := st.includedCSSPreload ++ [cssFile] }

/-- The first loop over `entryPoints` (the preload pass). -/
def preloadPass (manifest : viteManifest) (baseURL : String) (fuel : Nat) :
    List String → ProdState → Option ProdState
  | [], st => some st
  | entrySrc :: rest, st =>
    match manifest.get entrySrc with
    | none => preloadPass manifest baseURL fuel rest st
    | some entry =>
      match preloadJS manifest baseURL fuel entrySrc st with
      | none => none
      | some st1 => preloadPass manifest baseURL fuel rest (preloadCSS baseURL entry.CSS st1)

/-- The inner loop of the second pass: one stylesheet link per CSS file that is not
yet in `includedCSS`. -/
def linkCSS (baseURL : String) : List String → ProdState → ProdState
  | [], st => st
  | cssFile :: rest, st =>
    if cssFile ∈ st.includedCSS then linkCSS baseURL rest st
    else
      linkCSS baseURL rest
        { st with
          sb := st.sb ++ [Tag.stylesheet (baseURL ++ cssFile)]
          includedCSS := st.includedCSS ++ [cssFile] }

/-- The script tag of one entry: written when the lower-cased file ends in `.js`. -/
def writeEntryScript (baseURL : String) (entry : viteManifestEntry) (st : ProdState) :
    ProdState :=
  if hasSuffix (toLower entry.File) ".js" then
    { st with sb := st.sb ++ [Tag.moduleScript (baseURL ++ entry.File)] }
  else st

/-- The second loop over `entryPoints` (the entry tag pass). -/
def entryPass (manifest : viteManifest) (baseURL : String) :
    List String → ProdState → ProdState
  | [], st => st
  | entrySrc :: rest, st =>
    match manifest.get entrySrc with
    | none => entryPass manifest baseURL rest st
    | some entry =>
      entryPass manifest baseURL rest
        (linkCSS baseURL entry.CSS (writeEntryScript baseURL entry st))

/-- The production branch of `Assets` after a successful manifest load, with the
recursion of `preloadJS` bounded by `fuel`: the chunks written to the builder. -/
def productionFuel (fuel : Nat) (manifest : viteManifest) (entryPoints : List String)
    (baseURL : String) : Option (List Tag) :=
  match preloadPass manifest (normalizeBaseURL baseURL) fuel entryPoints {} with
  | none => none
  | some st => some (entryPass manifest (normalizeBaseURL baseURL) entryPoints st).sb

/-- The production branch of `Assets` after a successful manifest load. -/
def production (manifest : viteManifest) (entryPoints : List String) (baseURL : String) :
    Option (List Tag) :=
  productionFuel (manifest.length + 1) manifest entryPoints baseURL

/-- The fragment returned by the production branch of `Assets`. -/
def productionHTML (manifest : viteManifest) (entryPoints : List String)
    (baseURL : String) : Option String :=
  (production manifest entryPoints baseURL).map renderAll

/-- The development branch of `Assets` (`env == "local"`). -/
def development (jsFramework viteDevServer : String) (entryPoints : List String) :
    List Tag :=
  (if jsFramework = "react" then [Tag.reactPreamble viteDevServer] else []) ++
    [Tag.moduleScript (viteDevServer ++ "/" ++ "@vite/client")] ++
    entryPoints.map fun entry => Tag.moduleScript (viteDevServer ++ "/" ++ entry)

/-! ### The whole of `Assets`: configuration, cached globals, manifest load -/

/-- Go `strings.Split(s, ",")` on the characters of `s`: the pieces between the
commas, in order. -/
def splitComma : List Char → List (List Char)
  | [] => [[]]
  | c :: cs =>
    match splitComma cs with
    | [] => [[c]]
    | w :: ws => if c = ',' then [] :: w :: ws else (c :: w) :: ws

/-- The entry point list `strings.Split(v.config.GetString("vite.entry_points", ""), ",")`. -/
def splitEntryPoints (s : String) : List String :=
  (splitComma s.data).map String.mk

/-- The values that the `v.config.GetString` calls of one `Assets` call return. -/
structure Config where
  appEnv : String
  jsFramework : String
  entryPoints : String
  devServerURL : String
  baseURL : String
  manifestPath : String

/-- The library functions `loadManifest` calls, which are not code of this package:
`path.Base` of the framework, `os.ReadFile` (a file content or an error text),
`json.Unmarshal` into a `viteManifest` (a manifest or an error text) and the `%q`
formatting of a string. -/
structure Library where
  pathBase : String → String
  readFile : String → Except String String
  unmarshal : String → Except String viteManifest
  quoted : String → String

/-- The package-level variables; a `sync.Once` is its done flag, a `nil` error is
`none`, and the zero value of every field is the state at program start. -/
structure Globals where
  manifest : viteManifest := []
  manifestOnce : Bool := false
  manifestErr : Option String := none
  entryPoints : List String := []
  entryPointsOnce : Bool := false
deriving DecidableEq, Repr

/-- The statement `entryPointsOnce.Do(func() { entryPoints = strings.Split(...) })`. -/
def parseEntryPoints (cfg : Config) (g : Globals) : Globals :=
  if g.entryPointsOnce then g
  else { g with entryPoints := splitEntryPoints cfg.entryPoints, entryPointsOnce := true }

/-- The method `loadManifest`: the globals after the call (the returned pair is their
`manifest` and `manifestErr`) and the paths given to `os.ReadFile` during the call. -/
def loadManifest (lib : Library) (cfg : Config) (g : Globals) : Globals × List String :=
  if g.manifestOnce then (g, [])
  else
    match lib.readFile (lib.pathBase cfg.manifestPath) with
    | .error err =>
      ({ g with
         manifestOnce := true
         manifestErr := some ("reading manifest file " ++
           lib.quoted (lib.pathBase cfg.manifestPath) ++ ": " ++ err) },
       [lib.pathBase cfg.manifestPath])
    | .ok data =>
      match lib.unmarshal data with
      | .error err =>
        ({ g with
           manifestOnce := true
           manifestErr := some ("parsing manifest JSON " ++
             lib.quoted (lib.pathBase cfg.manifestPath) ++ ": " ++ err) },
         [lib.pathBase cfg.manifestPath])
      | .ok m =>
        ({ g with manifestOnce := true, manifest := m, manifestErr := none },
         [lib.pathBase cfg.manifestPath])

/-- What one call of `Assets` does: the returned fragment (`none` only if the
recursion bound of `preloadJS` were exhausted), the globals after the call and the
paths read from the file system. -/
structure AssetsResult where
  html : Option String
  globals : Globals
  reads : List String

/-- The method `Assets`, called with the globals `g`. -/
def Assets (lib : Library) (cfg : Config) (g : Globals) : AssetsResult :=
  if cfg.appEnv = "local" then
    { html := some (renderAll (development cfg.jsFramework cfg.devServerURL
        (parseEntryPoints cfg g).entryPoints))
      globals := parseEntryPoints cfg g
      reads := [] }
  else
    match (loadManifest lib cfg (parseEntryPoints cfg g)).1.manifestErr with
    | some err =>
      { html := some ("<!-- ERROR: Could not load Vite manifest: " ++ err ++ " -->")
        globals := (loadManifest lib cfg (parseEntryPoints cfg g)).1
        reads := (loadManifest lib cfg (parseEntryPoints cfg g)).2 }
    | none =>
      { html := productionHTML (loadManifest lib cfg (parseEntryPoints cfg g)).1.manifest
          (loadManifest lib cfg (parseEntryPoints cfg g)).1.entryPoints cfg.baseURL
        globals := (loadManifest lib cfg (parseEntryPoints cfg g)).1
        reads := (loadManifest lib cfg (parseEntryPoints cfg g)).2 }

/-- The concatenation of a list of strings. -/
def concatStrings : List String → String
  | [] => ""
  | s :: rest => s ++ concatStrings rest

/-! ### Observations on a fragment -/

/-- The hrefs of the modulepreload links of a fragment, in order. -/
def modulePreloadHrefs : List Tag → List String
  | [] => []
  | Tag.modulePreload href :: ts => href :: modulePreloadHrefs ts
  | _ :: ts => modulePreloadHrefs ts

/-- The hrefs of the preload-as-style links of a fragment, in order. -/
def stylePreloadHrefs : List Tag → List String
  | [] => []
  | Tag.stylePreload href :: ts => href :: stylePreloadHrefs ts
  | _ :: ts => stylePreloadHrefs ts

/-- The hrefs of the stylesheet links of a fragment, in order. -/
def stylesheetHrefs : List Tag → List String
  | [] => []
  | Tag.stylesheet href :: ts => href :: stylesheetHrefs ts
  | _ :: ts => stylesheetHrefs ts

/-- The sources of the module script tags of a fragment, in order. -/
def moduleScriptSrcs : List Tag → List String
  | [] => []
  | Tag.moduleScript src :: ts => src :: moduleScriptSrcs ts
  | _ :: ts => moduleScriptSrcs ts

/-! ### Specification-side notions -/

/-- Depth-first pre-order of the import graph, as the specification words it:
`Preorder manifest keys seen order` holds when traversing `keys` in list order,
with the keys of `seen` already visited, discovers exactly the keys `order`, in
that order. A visited key and a key absent from the manifest contribute nothing;
a first-visited key comes first, then what its imports discover, in listed order. -/
inductive Preorder (manifest : viteManifest) :
    List String → List String → List String → Prop
  | done (seen : List String) : Preorder manifest [] seen []
  | revisit {k : String} {ks seen order : List String} :
      k ∈ seen → Preorder manifest ks seen order → Preorder manifest (k :: ks) seen order
  | absent {k : String} {ks seen order : List String} :
      k ∉ seen → manifest.get k = none → Preorder manifest ks seen order →
      Preorder manifest (k :: ks) seen order
  | visit {k : String} {entry : viteManifestEntry} {ks seen sub order : List String} :
      k ∉ seen → manifest.get k = some entry →
      Preorder manifest entry.Imports (seen ++ [k]) sub →
      Preorder manifest ks (seen ++ k :: sub) order →
      Preorder manifest (k :: ks) seen (k :: sub ++ order)

/-- The key `k` is reached from the key `r` through a chain of imports all of whose
modules, `r` and `k` included, are present in the manifest. -/
inductive Reach (manifest : viteManifest) : String → String → Prop
  | here {r : String} {entry : viteManifestEntry} :
      manifest.get r = some entry → Reach manifest r r
  | step {r imp k : String} {entry : viteManifestEntry} :
      manifest.get r = some entry → imp ∈ entry.Imports → Reach manifest imp k →
      Reach manifest r k

/-- The modulepreload link of the manifest key `k` points at `href`. -/
def IsPreloadHref (manifest : viteManifest) (baseURL : String) (k href : String) : Prop :=
  ∃ entry, manifest.get k = some entry ∧ href = baseURL ++ entry.File

/-- Order-preserving deduplication, by exact equality: every element is kept at its
first occurrence. -/
def dedupFirst : List String → List String
  | [] => []
  | x :: xs => x :: (dedupFirst xs).filter (fun y => y ≠ x)

/-- The concatenation of the `css` lists of the manifest-present roots, in list order. -/
def rootCSS (manifest : viteManifest) : List String → List String
  | [] => []
  | r :: rest =>
    match manifest.get r with
    | none => rootCSS manifest rest
    | some entry => entry.CSS ++ rootCSS manifest rest

/-! ### Auxiliary definitions used in the proofs -/

/-- The modulepreload link written for the key `k`. -/
def preloadLink (manifest : viteManifest) (baseURL : String) (k : String) : Tag :=
  match manifest.get k with
  | some entry => Tag.modulePreload (baseURL ++ entry.File)
  | none => Tag.modulePreload baseURL

/-- The state after the modulepreload links of the keys `ks` were written. -/
def ProdState.addPreloads (manifest : viteManifest) (baseURL : String) (st : ProdState)
    (ks : List String) : ProdState :=
  { st with
    sb := st.sb ++ ks.map (preloadLink manifest baseURL)
    includedJSPreload := st.includedJSPreload ++ ks }

/-- The number of manifest keys that are not in `seen`. -/
def unvisited (manifest : viteManifest) (seen : List String) : Nat :=
  ((manifest.map Prod.fst).toFinset \ seen.toFinset).card

/-- The elements of `css` that a dedup loop starting with the set `seen` lets through. -/
def fresh : List String → List String → List String
  | _, [] => []
  | seen, c :: cs => if c ∈ seen then fresh seen cs else c :: fresh (seen ++ [c]) cs

/-- The preload-as-style link of the CSS file `c`. -/
def stylePreloadLink (baseURL : String) (c : String) : Tag :=
  Tag.stylePreload (baseURL ++ c)

/-- The stylesheet link of the CSS file `c`. -/
def stylesheetLink (baseURL : String) (c : String) : Tag :=
  Tag.stylesheet (baseURL ++ c)

/-- The chunks of the preload pass, one group per manifest-present root: the keys
whose modulepreload links the root adds, then the CSS files whose preload-as-style
links it adds. -/
def groupTags (manifest : viteManifest) (baseURL : String) :
    List (List String × List String) → List Tag
  | [] => []
  | g :: gs =>
    g.1.map (preloadLink manifest baseURL) ++ g.2.map (stylePreloadLink baseURL) ++
      groupTags manifest baseURL gs

/-- The keys of all groups, in order. -/
def groupKeys : List (List String × List String) → List String
  | [] => []
  | g :: gs => g.1 ++ groupKeys gs

/-- The CSS files of all groups, in order. -/
def groupCSS : List (List String × List String) → List String
  | [] => []
  | g :: gs => g.2 ++ groupCSS gs

/-- The script tag of an entry, if its file is a script. -/
def scriptTags (baseURL : String) (entry : viteManifestEntry) : List Tag :=
  if hasSuffix (toLower entry.File) ".js" then [Tag.moduleScript (baseURL ++ entry.File)]
  else []

/-- The chunks of the entry tag pass, when the stylesheets `seen` are linked already. -/
def entryTags (manifest : viteManifest) (baseURL : String) :
    List String → List String → List Tag
  | _, [] => []
  | seen, r :: rest =>
    match manifest.get r with
    | none => entryTags manifest baseURL seen rest
    | some entry =>
      scriptTags baseURL entry ++ (fresh seen entry.CSS).map (stylesheetLink baseURL) ++
        entryTags manifest baseURL (seen ++ fresh seen entry.CSS) rest

/-- The roots that are keys of the manifest, in list order. -/
def presentRoots (manifest : viteManifest) (entryPoints : List String) : List String :=
  entryPoints.filter fun r => (manifest.get r).isSome

/-- The chunk is a modulepreload link. -/
def Tag.isModulePreload : Tag → Bool
  | .modulePreload _ => true
  | _ => false

/-- The chunk is a preload-as-style link. -/
def Tag.isStylePreload : Tag → Bool
  | .stylePreload _ => true
  | _ => false

/-- The chunk is an entry tag: a module script or a stylesheet link. -/
def Tag.isEntryTag : Tag → Bool
  | .moduleScript _ => true
  | .stylesheet _ => true
  | _ => false

/-- The concatenation of groups of chunks, each group a first part followed by a
second part. -/
def concatGroups : List (List Tag × List Tag) → List Tag
  | [] => []
  | g :: gs => g.1 ++ g.2 ++ concatGroups gs

/-- Every modulepreload link of the fragment precedes every preload-as-style link:
the fragment never has a preload-as-style link followed, anywhere later, by a
modulepreload link. -/
def ModulePreloadsFirst (out : List Tag) : Prop :=
  ∀ (l1 l2 l3 : List Tag) (h1 h2 : String),
    out ≠ l1 ++ Tag.stylePreload h1 :: (l2 ++ Tag.modulePreload h2 :: l3)

/-- The manifest in which the element at index `i` of the imports list of the entry
of `target` is deleted. -/
def dropImport (target : String) (i : Nat) (manifest : viteManifest) : viteManifest :=
  manifest.map fun p =>
    (p.1, if p.1 = target then { p.2 with Imports := p.2.Imports.eraseIdx i } else p.2)

/-- The chunk is a preload link: a modulepreload or a preload-as-style link. -/
def Tag.isPreload (t : Tag) : Bool :=
  t.isModulePreload || t.isStylePreload

/-- The chunks `g` are the entry tags of the root `r`: the script tag of its entry, if
the file is a script, then stylesheet links for some of its `css` files, in listed
order. -/
def IsEntryGroup (manifest : viteManifest) (baseURL : String) (r : String)
    (g : List Tag × List Tag) : Prop :=
  ∃ entry, manifest.get r = some entry ∧ g.1 = scriptTags baseURL entry ∧
    ∃ css : List String, css.Sublist entry.CSS ∧ g.2 = css.map (stylesheetLink baseURL)

/-- The source of the script tag written for the root `r`, if one is written. -/
def scriptSrc (manifest : viteManifest) (baseURL : String) (r : String) : Option String :=
  match manifest.get r with
  | none => none
  | some entry =>
    if hasSuffix (toLower entry.File) ".js" then some (baseURL ++ entry.File) else none

/-- The pieces joined again, with one comma between two neighbours. -/
def joinComma : List (List Char) → List Char
  | [] => []
  | w :: ws =>
    match ws with
    | [] => w
    | _ :: _ => w ++ ',' :: joinComma ws

/-- The preload part of a fragment, root by root: `PreloadGroups manifest baseURL
seenJS seenCSS roots groups` holds when `groups` has one group per root of `roots`, in
order, every root is a manifest key, and the group of a root is
* first the modulepreload links, base URL + file, of the keys that the depth-first
  pre-order from that root discovers, given the keys `seenJS` visited before,
* then the preload-as-style links, base URL + path, of the `css` files of the root,
  each at its first occurrence and without those of `seenCSS`, preloaded before;
the next root starts from the visited keys and preloaded files so extended. -/
inductive PreloadGroups (manifest : viteManifest) (baseURL : String) :
    List String → List String → List String → List (List Tag × List Tag) → Prop
  | done (seenJS seenCSS : List String) : PreloadGroups manifest baseURL seenJS seenCSS [] []
  | root {r : String} {entry : viteManifestEntry} {keys rest seenJS seenCSS : List String}
      {g : List Tag × List Tag} {gs : List (List Tag × List Tag)} :
      manifest.get r = some entry →
      Preorder manifest [r] seenJS keys →
      List.Forall₂
        (fun k t => ∃ e, manifest.get k = some e ∧ t = Tag.modulePreload (baseURL ++ e.File))
        keys g.1 →
      g.2 = ((dedupFirst entry.CSS).filter fun c => c ∉ seenCSS).map
        (fun c => Tag.stylePreload (baseURL ++ c)) →
      PreloadGroups manifest baseURL (seenJS ++ keys)
        (seenCSS ++ (dedupFirst entry.CSS).filter fun c => c ∉ seenCSS) rest gs →
      PreloadGroups manifest baseURL seenJS seenCSS (r :: rest) (g :: gs)

/-! ### Example manifests (from `vite_test.go`) -/

/-- The manifest of `TestAssets_Production_WithImports`, with short names. -/
def importsManifest : viteManifest :=
  [("app", { File := "a.js", Src := "app", IsEntry := true, Imports := ["vendor"] }),
   ("vendor", { File := "v.js" })]

/-- The manifest of `TestAssets_Production_MultipleEntryPoints`. -/
def multipleEntryManifest : viteManifest :=
  [("resources/js/app.js",
      { File := "assets/app.12345.js", Src := "resources/js/app.js", IsEntry := true,
        CSS := ["assets/app.abcde.css"] }),
   ("resources/js/admin.js",
      { File := "assets/admin.67890.js", Src := "resources/js/admin.js", IsEntry := true,
        CSS := ["assets/admin.fghij.css"] })]

/-- The manifest of `TestAssets_Production_SingleEntryPoint_WithCSS`. -/
def singleEntryManifest : viteManifest :=
  [("resources/js/app.js",
      { File := "assets/app.12345.js", Src := "resources/js/app.js", IsEntry := true,
        CSS := ["assets/app.67890.css"] })]

/-- The manifest of `TestAssets_Production_WithImports`, whose entry also imports a
chunk `_missing.js` that the manifest does not list. -/
def danglingImportManifest : viteManifest :=
  [("resources/js/app.js",
      { File := "assets/app.12345.js", Src := "resources/js/app.js", IsEntry := true,
        Imports := ["_missing.js", "_vendor.abcdef.js"] }),
   ("_vendor.abcdef.js", { File := "assets/vendor.abcdef.js" })]

/-- A manifest whose entry imports a chunk that has a stylesheet of its own. -/
def cssImportManifest : viteManifest :=
  [("app", { File := "a.js", Imports := ["vendor"] }),
   ("vendor", { File := "v.js", CSS := ["v.css"] })]

/-- A manifest in which two keys name the same output file. -/
def sharedFileManifest : viteManifest :=
  [("app", { File := "a.js", Imports := ["x", "y"] }),
   ("x", { File := "shared.js" }),
   ("y", { File := "shared.js" })]

/-- A file system without the manifest file, and a parser that accepts nothing. -/
def missingFileLibrary : Library where
  pathBase := fun p => "/app/" ++ p
  readFile := fun _ => .error "no such file or directory"
  unmarshal := fun _ => .error "unexpected end of JSON input"
  quoted := fun p => "\"" ++ p ++ "\""

/-- A file system whose every file holds a manifest that is not valid JSON. -/
def invalidJSONLibrary : Library where
  pathBase := fun p => "/app/" ++ p
  readFile := fun _ => .ok "\x7b\"invalid json"
  unmarshal := fun _ => .error "unexpected end of JSON input"
  quoted := fun p => "\"" ++ p ++ "\""

/-- A file system whose every file holds the manifest of
`TestAssets_Production_SingleEntryPoint_WithCSS`. -/
def singleEntryLibrary : Library where
  pathBase := fun p => "/app/" ++ p
  readFile := fun _ => .ok "manifest"
  unmarshal := fun _ => .ok singleEntryManifest
  quoted := fun p => "\"" ++ p ++ "\""

/-- The default configuration with the entry point `resources/js/app.js`. -/
def productionConfig : Config where
  appEnv := "production"
  jsFramework := "vue"
  entryPoints := "resources/js/app.js"
  devServerURL := "http://localhost:5173"
  baseURL := "/static/"
  manifestPath := "public/build/.vite/manifest.json"

/-- The configuration of `TestAssets_LocalEnvironment_ReactFramework`. -/
def localReactConfig : Config where
  appEnv := "local"
  jsFramework := "react"
  entryPoints := "resources/js/app.jsx"
  devServerURL := "http://localhost:5173"
  baseURL := "/static/"
  manifestPath := "public/build/.vite/manifest.json"

/-- A manifest whose import graph has cycles: `a` imports `b`, `b` imports `a` and
itself. -/
def cyclicManifest : viteManifest :=
  [("a", { File := "a.js", Imports := ["b"] }),
   ("b", { File := "b.js", Imports := ["a", "b"] })]

/-- A manifest whose only entry point is a stylesheet. -/
def cssEntryManifest : viteManifest :=
  [("resources/css/app.css",
      { File := "assets/app.css", Src := "resources/css/app.css", IsEntry := true })]

/-- The development configuration in which `vite.entry_points` is not set. -/
def defaultLocalConfig : Config where
  appEnv := "local"
  jsFramework := "vue"
  entryPoints := ""
  devServerURL := "http://localhost:5173"
  baseURL := "/static/"
  manifestPath := "public/build/.vite/manifest.json"

/-- The configuration of `TestAssets_Production_MultipleEntryPoints`. -/
def multipleEntryConfig : Config where
  appEnv := "production"
  jsFramework := "vue"
  entryPoints := "resources/js/app.js,resources/js/admin.js"
  devServerURL := "http://localhost:5173"
  baseURL := "/static/"
  manifestPath := "public/build/.vite/manifest.json"

/-! ### The traversal computes the depth-first pre-order -/

theorem get_some_mem_keys {m : viteManifest} {k : String} {e : viteManifestEntry}
    (h : m.get k = some e) : k ∈ m.map Prod.fst := by
  induction m with
  | nil => simp [viteManifest.get] at h
  | cons p rest ih =>
    obtain ⟨a, b⟩ := p
    by_cases hk : k = a
    · simp [hk]
    · have : (k == a) = false := by simpa using hk
      simp only [viteManifest.get, List.lookup, this] at h
      simp only [List.map_cons, List.mem_cons]
      exact Or.inr (ih h)

theorem Preorder.append {m : viteManifest} {l1 l2 seen o1 o2 : List String}
    (h1 : Preorder m l1 seen o1) (h2 : Preorder m l2 (seen ++ o1) o2) :
    Preorder m (l1 ++ l2) seen (o1 ++ o2) := by
  induction h1 with
  | done seen => simpa using h2
  | revisit hk _ ih => exact Preorder.revisit hk (ih h2)
  | absent hk hget _ ih => exact Preorder.absent hk hget (ih h2)
  | @visit k entry ks seen sub order hk hget hsub _ _ ih2 =>
    have h2' : Preorder m l2 (seen ++ k :: sub ++ order) o2 := by
      simpa [List.append_assoc] using h2
    have := Preorder.visit hk hget hsub (ih2 h2')
    simpa [List.append_assoc] using this

theorem addPreloads_nil (m : viteManifest) (b : String) (st : ProdState) :
    st.addPreloads m b [] = st := by
  simp [ProdState.addPreloads]

theorem addPreloads_append (m : viteManifest) (b : String) (st : ProdState)
    (o1 o2 : List String) :
    (st.addPreloads m b o1).addPreloads m b o2 = st.addPreloads m b (o1 ++ o2) := by
  simp [ProdState.addPreloads, List.append_assoc]

theorem rangeImports_sound {m : viteManifest} {b : String}
    {f : String → ProdState → Option ProdState}
    (hf : ∀ k st st', f k st = some st' →
      ∃ out, Preorder m [k] st.includedJSPreload out ∧ st' = st.addPreloads m b out) :
    ∀ (l : List String) (st st' : ProdState), rangeImports f l st = some st' →
      ∃ out, Preorder m l st.includedJSPreload out ∧ st' = st.addPreloads m b out := by
  intro l
  induction l with
  | nil =>
    intro st st' h
    simp only [rangeImports, Option.some.injEq] at h
    exact ⟨[], Preorder.done _, by rw [addPreloads_nil, h]⟩
  | cons imp rest ih =>
    intro st st' h
    simp only [rangeImports] at h
    cases hfi : f imp st with
    | none => simp [hfi] at h
    | some st1 =>
      simp only [hfi] at h
      obtain ⟨o1, hp1, rfl⟩ := hf imp st st1 hfi
      obtain ⟨o2, hp2, rfl⟩ := ih _ _ h
      refine ⟨o1 ++ o2, ?_, addPreloads_append m b st o1 o2⟩
      exact Preorder.append hp1 (by simpa [ProdState.addPreloads] using hp2)

theorem preloadJS_sound {m : viteManifest} {b : String} :
    ∀ (fuel : Nat) (k : String) (st st' : ProdState), preloadJS m b fuel k st = some st' →
      ∃ out, Preorder m [k] st.includedJSPreload out ∧ st' = st.addPreloads m b out := by
  intro fuel
  induction fuel with
  | zero => intro k st st' h; simp [preloadJS] at h
  | succ fuel ih =>
    intro k st st' h
    simp only [preloadJS] at h
    split at h
    · next hk =>
      simp only [Option.some.injEq] at h
      exact ⟨[], Preorder.revisit hk (Preorder.done _), by rw [addPreloads_nil, h]⟩
    · next hk =>
      split at h
      · next hget =>
        simp only [Option.some.injEq] at h
        exact ⟨[], Preorder.absent hk hget (Preorder.done _), by rw [addPreloads_nil, h]⟩
      · next entry hget =>
        obtain ⟨sub, hsub, rfl⟩ := rangeImports_sound ih _ _ _ h
        refine ⟨k :: sub, ?_, ?_⟩
        · have := Preorder.visit hk hget hsub (Preorder.done _)
          simpa using this
        · simp [ProdState.addPreloads, preloadLink, hget]

/-! ### Enough fuel: the traversal terminates -/

theorem unvisited_le_length (m : viteManifest) (seen : List String) :
    unvisited m seen ≤ m.length := by
  unfold unvisited
  calc ((m.map Prod.fst).toFinset \ seen.toFinset).card
      ≤ (m.map Prod.fst).toFinset.card := Finset.card_le_card Finset.sdiff_subset
    _ ≤ (m.map Prod.fst).length := List.toFinset_card_le _
    _ = m.length := by simp

theorem unvisited_append_le (m : viteManifest) (seen out : List String) :
    unvisited m (seen ++ out) ≤ unvisited m seen := by
  unfold unvisited
  apply Finset.card_le_card
  intro x hx
  simp only [Finset.mem_sdiff, List.mem_toFinset, List.mem_append, not_or] at hx ⊢
  exact ⟨hx.1, hx.2.1⟩

theorem unvisited_lt {m : viteManifest} {seen : List String} {k : String}
    (hk : k ∉ seen) (hm : k ∈ m.map Prod.fst) :
    unvisited m (seen ++ [k]) < unvisited m seen := by
  unfold unvisited
  apply Finset.card_lt_card
  constructor
  · intro x hx
    simp only [Finset.mem_sdiff, List.mem_toFinset, List.mem_append, not_or] at hx ⊢
    exact ⟨hx.1, hx.2.1⟩
  · intro hsub
    have hmem : k ∈ (m.map Prod.fst).toFinset \ seen.toFinset := by
      simp only [Finset.mem_sdiff, List.mem_toFinset]
      exact ⟨hm, hk⟩
    have := hsub hmem
    simp at this

theorem rangeImports_total {m : viteManifest} {b : String} {fuel : Nat}
    (hf : ∀ (k : String) (st : ProdState), unvisited m st.includedJSPreload < fuel →
      ∃ st', preloadJS m b fuel k st = some st') :
    ∀ (l : List String) (st : ProdState), unvisited m st.includedJSPreload < fuel →
      ∃ st', rangeImports (preloadJS m b fuel) l st = some st' := by
  intro l
  induction l with
  | nil => intro st _; exact ⟨st, rfl⟩
  | cons imp rest ih =>
    intro st hst
    obtain ⟨st1, h1⟩ := hf imp st hst
    obtain ⟨out, _, rfl⟩ := preloadJS_sound _ _ _ _ h1
    have hlt : unvisited m (st.addPreloads m b out).includedJSPreload < fuel :=
      lt_of_le_of_lt (unvisited_append_le m _ out) hst
    obtain ⟨st2, h2⟩ := ih _ hlt
    exact ⟨st2, by simp only [rangeImports, h1, h2]⟩

theorem preloadJS_total (m : viteManifest) (b : String) :
    ∀ (fuel : Nat) (k : String) (st : ProdState), unvisited m st.includedJSPreload < fuel →
      ∃ st', preloadJS m b fuel k st = some st' := by
  intro fuel
  induction fuel with
  | zero => intro k st h; exact absurd h (Nat.not_lt_zero _)
  | succ fuel ih =>
    intro k st h
    simp only [preloadJS]
    split
    · exact ⟨st, rfl⟩
    · next hk =>
      split
      · exact ⟨st, rfl⟩
      · next entry hget =>
        apply rangeImports_total ih
        have := unvisited_lt hk (get_some_mem_keys hget)
        simp only
        omega

theorem preloadJS_total_of_length {m : viteManifest} (b : String) {fuel : Nat}
    (hfuel : m.length < fuel) (k : String) (st : ProdState) :
    ∃ st', preloadJS m b fuel k st = some st' :=
  preloadJS_total m b fuel k st (lt_of_le_of_lt (unvisited_le_length m _) hfuel)

theorem rangeImports_imp {f g : String → ProdState → Option ProdState}
    (hfg : ∀ k st st', f k st = some st' → g k st = some st') :
    ∀ (l : List String) (st st' : ProdState),
      rangeImports f l st = some st' → rangeImports g l st = some st' := by
  intro l
  induction l with
  | nil => intro st st' h; exact h
  | cons imp rest ih =>
    intro st st' h
    simp only [rangeImports] at h ⊢
    cases hf : f imp st with
    | none => simp [hf] at h
    | some st1 =>
      simp only [hf] at h
      simp only [hfg _ _ _ hf]
      exact ih _ _ h

theorem preloadJS_fuel_succ {m : viteManifest} {b : String} :
    ∀ (fuel : Nat) (k : String) (st st' : ProdState),
      preloadJS m b fuel k st = some st' → preloadJS m b (fuel + 1) k st = some st' := by
  intro fuel
  induction fuel with
  | zero => intro k st st' h; simp [preloadJS] at h
  | succ fuel ih =>
    intro k st st' h
    rw [preloadJS] at h ⊢
    split
    · next hk => simpa [hk] using h
    · next hk =>
      simp only [hk, if_false] at h
      split
      · next hget => simpa [hget] using h
      · next entry hget =>
        simp only [hget] at h
        exact rangeImports_imp ih _ _ _ h

theorem preloadJS_fuel_le {m : viteManifest} {b : String} {fuel fuel' : Nat}
    (hle : fuel ≤ fuel') (k : String) (st st' : ProdState)
    (h : preloadJS m b fuel k st = some st') : preloadJS m b fuel' k st = some st' := by
  induction hle with
  | refl => exact h
  | step _ ih => exact preloadJS_fuel_succ _ _ _ _ ih

theorem preloadPass_fuel_le {m : viteManifest} {b : String} {fuel fuel' : Nat}
    (hle : fuel ≤ fuel') :
    ∀ (eps : List String) (st st' : ProdState),
      preloadPass m b fuel eps st = some st' → preloadPass m b fuel' eps st = some st' := by
  intro eps
  induction eps with
  | nil => intro st st' h; exact h
  | cons r rest ih =>
    intro st st' h
    simp only [preloadPass] at h ⊢
    cases hget : m.get r with
    | none =>
      simp only [hget] at h ⊢
      exact ih _ _ h
    | some entry =>
      simp only [hget] at h ⊢
      cases hjs : preloadJS m b fuel r st with
      | none => simp [hjs] at h
      | some st1 =>
        simp only [hjs] at h
        simp only [preloadJS_fuel_le hle _ _ _ hjs]
        exact ih _ _ h

/-! ### Properties of the depth-first pre-order -/

theorem Preorder.deterministic {m : viteManifest} {l seen o1 o2 : List String}
    (h1 : Preorder m l seen o1) (h2 : Preorder m l seen o2) : o1 = o2 := by
  induction h1 generalizing o2 with
  | done seen => cases h2; rfl
  | revisit hk _ ih =>
    cases h2 with
    | revisit _ h => exact ih h
    | absent hk' _ _ => exact absurd hk hk'
    | visit hk' _ _ _ => exact absurd hk hk'
  | absent hk hget _ ih =>
    cases h2 with
    | revisit hk' _ => exact absurd hk' hk
    | absent _ _ h => exact ih h
    | visit _ hget' _ _ => rw [hget] at hget'; cases hget'
  | visit hk hget _ _ ih1 ih2 =>
    cases h2 with
    | revisit hk' _ => exact absurd hk' hk
    | absent _ hget' _ => rw [hget] at hget'; cases hget'
    | visit _ hget' hs ho =>
      rw [hget] at hget'
      cases hget'
      have := ih1 hs
      subst this
      rw [ih2 ho]

theorem Preorder.fresh_nodup {m : viteManifest} {l seen out : List String}
    (h : Preorder m l seen out) : out.Nodup ∧ ∀ x ∈ out, x ∉ seen := by
  induction h with
  | done seen => simp
  | revisit _ _ ih => exact ih
  | absent _ _ _ ih => exact ih
  | @visit k entry ks seen sub order hk _ _ _ ih1 ih2 =>
    obtain ⟨hn1, hd1⟩ := ih1
    obtain ⟨hn2, hd2⟩ := ih2
    constructor
    · rw [List.cons_append, List.nodup_cons, List.nodup_append]
      refine ⟨?_, hn1, hn2, ?_⟩
      · intro hmem
        rcases List.mem_append.1 hmem with hs | ho
        · exact hd1 k hs (by simp)
        · exact hd2 k ho (by simp)
      · intro x hx1 hx2
        exact hd2 x hx2 (by simp [hx1])
    · intro x hx hseen
      rcases List.mem_cons.1 hx with rfl | hx
      · exact hk hseen
      · rcases List.mem_append.1 hx with hs | ho
        · exact hd1 x hs (by simp [hseen])
        · exact hd2 x ho (by simp [hseen])

theorem Preorder.reached {m : viteManifest} {l seen out : List String}
    (h : Preorder m l seen out) : ∀ x ∈ out, ∃ r ∈ l, Reach m r x := by
  induction h with
  | done seen => simp
  | revisit _ _ ih =>
    intro x hx
    obtain ⟨r, hr, hreach⟩ := ih x hx
    exact ⟨r, List.mem_cons_of_mem _ hr, hreach⟩
  | absent _ _ _ ih =>
    intro x hx
    obtain ⟨r, hr, hreach⟩ := ih x hx
    exact ⟨r, List.mem_cons_of_mem _ hr, hreach⟩
  | @visit k entry ks seen sub order _ hget _ _ ih1 ih2 =>
    intro x hx
    rcases List.mem_cons.1 hx with rfl | hx
    · exact ⟨x, List.mem_cons_self _ _, Reach.here hget⟩
    · rcases List.mem_append.1 hx with hs | ho
      · obtain ⟨imp, himp, hreach⟩ := ih1 x hs
        exact ⟨k, List.mem_cons_self _ _, Reach.step hget himp hreach⟩
      · obtain ⟨r, hr, hreach⟩ := ih2 x ho
        exact ⟨r, List.mem_cons_of_mem _ hr, hreach⟩

theorem Preorder.closed {m : viteManifest} {l seen out : List String}
    (h : Preorder m l seen out) :
    (∀ r ∈ l, ∀ e, m.get r = some e → r ∈ seen ++ out) ∧
    (∀ x ∈ out, ∀ e, m.get x = some e → ∀ imp ∈ e.Imports, ∀ e', m.get imp = some e' →
      imp ∈ seen ++ out) := by
  induction h with
  | done seen => simp
  | @revisit k ks seen order hk _ ih =>
    refine ⟨?_, ih.2⟩
    intro r hr e he
    rcases List.mem_cons.1 hr with rfl | hr
    · exact List.mem_append_left _ hk
    · exact ih.1 r hr e he
  | @absent k ks seen order _ hget _ ih =>
    refine ⟨?_, ih.2⟩
    intro r hr e he
    rcases List.mem_cons.1 hr with rfl | hr
    · rw [hget] at he; cases he
    · exact ih.1 r hr e he
  | @visit k entry ks seen sub order _ hget _ _ ih1 ih2 =>
    constructor
    · intro r hr e he
      rcases List.mem_cons.1 hr with rfl | hr
      · simp
      · have := ih2.1 r hr e he
        simp only [List.mem_append, List.mem_cons] at this ⊢
        tauto
    · intro x hx e he imp himp e' he'
      rcases List.mem_cons.1 hx with rfl | hx
      · rw [hget] at he
        cases he
        have := ih1.1 imp himp e' he'
        simp only [List.mem_append, List.mem_cons, List.mem_singleton] at this ⊢
        tauto
      · rcases List.mem_append.1 hx with hs | ho
        · have := ih1.2 x hs e he imp himp e' he'
          simp only [List.mem_append, List.mem_cons, List.mem_singleton] at this ⊢
          tauto
        · have := ih2.2 x ho e he imp himp e' he'
          simp only [List.mem_append, List.mem_cons] at this ⊢
          tauto

theorem Reach.present_left {m : viteManifest} {r k : String} (h : Reach m r k) :
    ∃ e, m.get r = some e := by
  cases h with
  | here hget => exact ⟨_, hget⟩
  | step hget _ _ => exact ⟨_, hget⟩

theorem Reach.present_right {m : viteManifest} {r k : String} (h : Reach m r k) :
    ∃ e, m.get k = some e := by
  induction h with
  | here hget => exact ⟨_, hget⟩
  | step _ _ _ ih => exact ih

theorem Preorder.mem_iff_reach {m : viteManifest} {l out : List String}
    (h : Preorder m l [] out) (x : String) : x ∈ out ↔ ∃ r ∈ l, Reach m r x := by
  constructor
  · exact h.reached x
  · rintro ⟨r, hr, hreach⟩
    obtain ⟨e, he⟩ := hreach.present_left
    have hroot : r ∈ out := by simpa using h.closed.1 r hr e he
    clear hr he
    induction hreach with
    | here _ => exact hroot
    | step hget himp hrest ih =>
      obtain ⟨e', he'⟩ := hrest.present_left
      have := h.closed.2 _ hroot _ hget _ himp _ he'
      exact ih (by simpa using this)

theorem Preorder.present {m : viteManifest} {l seen out : List String}
    (h : Preorder m l seen out) : ∀ x ∈ out, ∃ e, m.get x = some e := by
  intro x hx
  obtain ⟨r, _, hreach⟩ := h.reached x hx
  exact hreach.present_right

/-! ### The dedup loops -/

theorem fresh_append (seen l1 l2 : List String) :
    fresh seen (l1 ++ l2) = fresh seen l1 ++ fresh (seen ++ fresh seen l1) l2 := by
  induction l1 generalizing seen with
  | nil => simp [fresh]
  | cons c cs ih =>
    by_cases hc : c ∈ seen
    · simp [fresh, hc, ih]
    · simp [fresh, hc, ih, List.append_assoc]

theorem fresh_eq_filter (seen l : List String) :
    fresh seen l = (dedupFirst l).filter (fun x => x ∉ seen) := by
  induction l generalizing seen with
  | nil => simp [fresh, dedupFirst]
  | cons c cs ih =>
    by_cases hc : c ∈ seen
    · simp only [fresh, hc, if_true, dedupFirst, ih]
      rw [List.filter_cons_of_neg (by simpa using hc), List.filter_filter]
      apply List.filter_congr
      intro x _
      by_cases hx : x ∈ seen
      · simp [hx]
      · have : x ≠ c := fun h => hx (h ▸ hc)
        simp [hx, this]
    · simp only [fresh, hc, if_false, dedupFirst, ih]
      rw [List.filter_cons_of_pos (by simpa using hc), List.filter_filter]
      congr 1
      apply List.filter_congr
      intro x _
      simp [Bool.and_comm]

theorem fresh_nil (l : List String) : fresh [] l = dedupFirst l := by
  rw [fresh_eq_filter]
  simp

theorem mem_dedupFirst (l : List String) (x : String) : x ∈ dedupFirst l ↔ x ∈ l := by
  induction l with
  | nil => simp [dedupFirst]
  | cons c cs ih =>
    simp only [dedupFirst, List.mem_cons, List.mem_filter, ih]
    by_cases h : x = c <;> simp [h]

theorem dedupFirst_nodup (l : List String) : (dedupFirst l).Nodup := by
  induction l with
  | nil => simp [dedupFirst]
  | cons c cs ih =>
    simp only [dedupFirst, List.nodup_cons, List.mem_filter]
    exact ⟨by simp, ih.filter _⟩

theorem preloadCSS_eq (b : String) (css : List String) (st : ProdState) :
    preloadCSS b css st =
      { st with
        sb := st.sb ++ (fresh st.includedCSSPreload css).map (stylePreloadLink b)
        includedCSSPreload := st.includedCSSPreload ++ fresh st.includedCSSPreload css } := by
  induction css generalizing st with
  | nil => simp [preloadCSS, fresh]
  | cons c cs ih =>
    by_cases hc : c ∈ st.includedCSSPreload
    · simp [preloadCSS, fresh, hc, ih]
    · simp [preloadCSS, fresh, hc, ih, stylePreloadLink, List.append_assoc]

theorem linkCSS_eq (b : String) (css : List String) (st : ProdState) :
    linkCSS b css st =
      { st with
        sb := st.sb ++ (fresh st.includedCSS css).map (stylesheetLink b)
        includedCSS := st.includedCSS ++ fresh st.includedCSS css } := by
  induction css generalizing st with
  | nil => simp [linkCSS, fresh]
  | cons c cs ih =>
    by_cases hc : c ∈ st.includedCSS
    · simp [linkCSS, fresh, hc, ih]
    · simp [linkCSS, fresh, hc, ih, stylesheetLink, List.append_assoc]

theorem writeEntryScript_eq (b : String) (entry : viteManifestEntry) (st : ProdState) :
    writeEntryScript b entry st = { st with sb := st.sb ++ scriptTags b entry } := by
  unfold writeEntryScript scriptTags
  split <;> simp

/-! ### The two passes over the entry points -/

theorem entryPass_eq (m : viteManifest) (b : String) (eps : List String) (st : ProdState) :
    entryPass m b eps st =
      { st with
        sb := st.sb ++ entryTags m b st.includedCSS eps
        includedCSS := st.includedCSS ++ fresh st.includedCSS (rootCSS m eps) } := by
  induction eps generalizing st with
  | nil => simp [entryPass, entryTags, rootCSS, fresh]
  | cons r rest ih =>
    cases hget : m.get r with
    | none => simp [entryPass, entryTags, rootCSS, hget, ih]
    | some entry =>
      simp [entryPass, entryTags, rootCSS, hget, ih, linkCSS_eq, writeEntryScript_eq,
        fresh_append, List.append_assoc]

theorem preloadPass_sound {m : viteManifest} {b : String} {fuel : Nat} :
    ∀ (eps : List String) (st st' : ProdState), preloadPass m b fuel eps st = some st' →
      ∃ groups : List (List String × List String),
        st' = { sb := st.sb ++ groupTags m b groups
                includedCSS := st.includedCSS
                includedJSPreload := st.includedJSPreload ++ groupKeys groups
                includedCSSPreload := st.includedCSSPreload ++ groupCSS groups } ∧
        Preorder m eps st.includedJSPreload (groupKeys groups) ∧
        fresh st.includedCSSPreload (rootCSS m eps) = groupCSS groups ∧
        groups.length = (presentRoots m eps).length := by
  intro eps
  induction eps with
  | nil =>
    intro st st' h
    simp only [preloadPass, Option.some.injEq] at h
    subst h
    exact ⟨[], by simp [groupTags, groupKeys, groupCSS], Preorder.done _,
      by simp [rootCSS, fresh, groupCSS], by simp [presentRoots]⟩
  | cons r rest ih =>
    intro st st' h
    simp only [preloadPass] at h
    cases hget : m.get r with
    | none =>
      simp only [hget] at h
      obtain ⟨groups, hst, hpre, hcss, hlen⟩ := ih _ _ h
      refine ⟨groups, hst, ?_, by simpa [rootCSS, hget] using hcss,
        by simpa [presentRoots, hget] using hlen⟩
      by_cases hk : r ∈ st.includedJSPreload
      · exact Preorder.revisit hk hpre
      · exact Preorder.absent hk hget hpre
    | some entry =>
      simp only [hget] at h
      cases hjs : preloadJS m b fuel r st with
      | none => simp [hjs] at h
      | some st1 =>
        simp only [hjs] at h
        obtain ⟨o1, hp1, rfl⟩ := preloadJS_sound _ _ _ _ hjs
        obtain ⟨groups, hst, hpre, hcss, hlen⟩ := ih _ _ h
        refine ⟨(o1, fresh st.includedCSSPreload entry.CSS) :: groups, ?_, ?_, ?_, ?_⟩
        · rw [hst]
          simp [preloadCSS_eq, ProdState.addPreloads, groupTags, groupKeys, groupCSS,
            List.append_assoc]
        · have := Preorder.append hp1
            (by simpa [preloadCSS_eq, ProdState.addPreloads] using hpre)
          simpa [groupKeys] using this
        · simp only [rootCSS, hget, fresh_append, groupCSS]
          congr 1
          simpa [preloadCSS_eq, ProdState.addPreloads] using hcss
        · simpa [presentRoots, hget] using hlen

theorem preloadPass_total {m : viteManifest} (b : String) {fuel : Nat}
    (hfuel : m.length < fuel) :
    ∀ (eps : List String) (st : ProdState), ∃ st', preloadPass m b fuel eps st = some st' := by
  intro eps
  induction eps with
  | nil => intro st; exact ⟨st, rfl⟩
  | cons r rest ih =>
    intro st
    simp only [preloadPass]
    cases hget : m.get r with
    | none => exact ih st
    | some entry =>
      obtain ⟨st1, h1⟩ := preloadJS_total_of_length b hfuel r st
      simp only [h1]
      exact ih _

/-- The whole production fragment, for any sufficient fuel: the preload groups of the
manifest-present roots, then the entry tags. -/
theorem productionFuel_eq {m : viteManifest} {fuel : Nat} (hfuel : m.length < fuel)
    (eps : List String) (b : String) :
    ∃ groups : List (List String × List String),
      productionFuel fuel m eps b =
        some (groupTags m (normalizeBaseURL b) groups ++
          entryTags m (normalizeBaseURL b) [] eps) ∧
      Preorder m eps [] (groupKeys groups) ∧
      dedupFirst (rootCSS m eps) = groupCSS groups ∧
      groups.length = (presentRoots m eps).length := by
  obtain ⟨st', hst'⟩ := preloadPass_total (normalizeBaseURL b) hfuel eps {}
  obtain ⟨groups, hst, hpre, hcss, hlen⟩ := preloadPass_sound _ _ _ hst'
  refine ⟨groups, ?_, hpre, by simpa [fresh_nil] using hcss, hlen⟩
  simp only [productionFuel, hst', entryPass_eq, hst]
  simp

theorem production_eq (m : viteManifest) (eps : List String) (b : String) :
    ∃ groups : List (List String × List String),
      production m eps b =
        some (groupTags m (normalizeBaseURL b) groups ++
          entryTags m (normalizeBaseURL b) [] eps) ∧
      Preorder m eps [] (groupKeys groups) ∧
      dedupFirst (rootCSS m eps) = groupCSS groups ∧
      groups.length = (presentRoots m eps).length :=
  productionFuel_eq (Nat.lt_succ_self _) eps b

theorem productionFuel_eq_production {m : viteManifest} {fuel : Nat}
    (hfuel : m.length < fuel) (eps : List String) (b : String) :
    productionFuel fuel m eps b = production m eps b := by
  obtain ⟨st', hst'⟩ :=
    preloadPass_total (normalizeBaseURL b) (Nat.lt_succ_self m.length) eps {}
  have hst'' := preloadPass_fuel_le (Nat.succ_le_of_lt hfuel) _ _ _ hst'
  simp only [production, productionFuel, hst'']
  rw [show m.length + 1 = Nat.succ m.length from rfl, hst']

/-! ### Reading the links off a fragment -/

theorem modulePreloadHrefs_append (l1 l2 : List Tag) :
    modulePreloadHrefs (l1 ++ l2) = modulePreloadHrefs l1 ++ modulePreloadHrefs l2 := by
  induction l1 with
  | nil => rfl
  | cons t ts ih => cases t <;> simp [modulePreloadHrefs, ih]

theorem stylePreloadHrefs_append (l1 l2 : List Tag) :
    stylePreloadHrefs (l1 ++ l2) = stylePreloadHrefs l1 ++ stylePreloadHrefs l2 := by
  induction l1 with
  | nil => rfl
  | cons t ts ih => cases t <;> simp [stylePreloadHrefs, ih]

theorem stylesheetHrefs_append (l1 l2 : List Tag) :
    stylesheetHrefs (l1 ++ l2) = stylesheetHrefs l1 ++ stylesheetHrefs l2 := by
  induction l1 with
  | nil => rfl
  | cons t ts ih => cases t <;> simp [stylesheetHrefs, ih]

theorem moduleScriptSrcs_append (l1 l2 : List Tag) :
    moduleScriptSrcs (l1 ++ l2) = moduleScriptSrcs l1 ++ moduleScriptSrcs l2 := by
  induction l1 with
  | nil => rfl
  | cons t ts ih => cases t <;> simp [moduleScriptSrcs, ih]

theorem modulePreloadHrefs_preloadLinks {m : viteManifest} (b : String) :
    ∀ (ks : List String), (∀ k ∈ ks, ∃ e, m.get k = some e) →
      List.Forall₂ (IsPreloadHref m b) ks (modulePreloadHrefs (ks.map (preloadLink m b))) := by
  intro ks
  induction ks with
  | nil => intro _; exact List.Forall₂.nil
  | cons k rest ih =>
    intro h
    obtain ⟨e, he⟩ := h k (List.mem_cons_self _ _)
    have hrest := ih fun x hx => h x (List.mem_cons_of_mem _ hx)
    simp only [List.map_cons, preloadLink, he, modulePreloadHrefs]
    exact List.Forall₂.cons ⟨e, he, rfl⟩ hrest

theorem modulePreloadHrefs_stylePreloadLinks (b : String) (cs : List String) :
    modulePreloadHrefs (cs.map (stylePreloadLink b)) = [] := by
  induction cs with
  | nil => rfl
  | cons c rest ih => simpa [stylePreloadLink, modulePreloadHrefs] using ih

theorem stylePreloadHrefs_stylePreloadLinks (b : String) (cs : List String) :
    stylePreloadHrefs (cs.map (stylePreloadLink b)) = cs.map fun c => b ++ c := by
  induction cs with
  | nil => rfl
  | cons c rest ih => simpa [stylePreloadLink, stylePreloadHrefs] using ih

theorem stylePreloadHrefs_preloadLinks (m : viteManifest) (b : String) (ks : List String) :
    stylePreloadHrefs (ks.map (preloadLink m b)) = [] := by
  induction ks with
  | nil => rfl
  | cons k rest ih =>
    simp only [List.map_cons, preloadLink]
    split <;> simpa [stylePreloadHrefs] using ih

theorem stylesheetHrefs_preloadLinks (m : viteManifest) (b : String) (ks : List String) :
    stylesheetHrefs (ks.map (preloadLink m b)) = [] := by
  induction ks with
  | nil => rfl
  | cons k rest ih =>
    simp only [List.map_cons, preloadLink]
    split <;> simpa [stylesheetHrefs] using ih

theorem stylesheetHrefs_stylePreloadLinks (b : String) (cs : List String) :
    stylesheetHrefs (cs.map (stylePreloadLink b)) = [] := by
  induction cs with
  | nil => rfl
  | cons c rest ih => simpa [stylePreloadLink, stylesheetHrefs] using ih

theorem stylesheetHrefs_stylesheetLinks (b : String) (cs : List String) :
    stylesheetHrefs (cs.map (stylesheetLink b)) = cs.map fun c => b ++ c := by
  induction cs with
  | nil => rfl
  | cons c rest ih => simpa [stylesheetLink, stylesheetHrefs] using ih

theorem modulePreloadHrefs_stylesheetLinks (b : String) (cs : List String) :
    modulePreloadHrefs (cs.map (stylesheetLink b)) = [] := by
  induction cs with
  | nil => rfl
  | cons c rest ih => simpa [stylesheetLink, modulePreloadHrefs] using ih

theorem stylePreloadHrefs_stylesheetLinks (b : String) (cs : List String) :
    stylePreloadHrefs (cs.map (stylesheetLink b)) = [] := by
  induction cs with
  | nil => rfl
  | cons c rest ih => simpa [stylesheetLink, stylePreloadHrefs] using ih

theorem modulePreloadHrefs_scriptTags (b : String) (e : viteManifestEntry) :
    modulePreloadHrefs (scriptTags b e) = [] := by
  unfold scriptTags
  split <;> rfl

theorem stylePreloadHrefs_scriptTags (b : String) (e : viteManifestEntry) :
    stylePreloadHrefs (scriptTags b e) = [] := by
  unfold scriptTags
  split <;> rfl

theorem stylesheetHrefs_scriptTags (b : String) (e : viteManifestEntry) :
    stylesheetHrefs (scriptTags b e) = [] := by
  unfold scriptTags
  split <;> rfl

theorem modulePreloadHrefs_entryTags (m : viteManifest) (b : String) (eps : List String) :
    ∀ seen, modulePreloadHrefs (entryTags m b seen eps) = [] := by
  induction eps with
  | nil => intro _; rfl
  | cons r rest ih =>
    intro seen
    simp only [entryTags]
    split
    · exact ih _
    · simp [modulePreloadHrefs_append, modulePreloadHrefs_scriptTags,
        modulePreloadHrefs_stylesheetLinks, ih]

theorem stylePreloadHrefs_entryTags (m : viteManifest) (b : String) (eps : List String) :
    ∀ seen, stylePreloadHrefs (entryTags m b seen eps) = [] := by
  induction eps with
  | nil => intro _; rfl
  | cons r rest ih =>
    intro seen
    simp only [entryTags]
    split
    · exact ih _
    · simp [stylePreloadHrefs_append, stylePreloadHrefs_scriptTags,
        stylePreloadHrefs_stylesheetLinks, ih]

theorem stylesheetHrefs_entryTags (m : viteManifest) (b : String) (eps : List String) :
    ∀ seen, stylesheetHrefs (entryTags m b seen eps) =
      (fresh seen (rootCSS m eps)).map fun c => b ++ c := by
  induction eps with
  | nil => intro _; rfl
  | cons r rest ih =>
    intro seen
    simp only [entryTags, rootCSS]
    split
    · exact ih _
    · simp [stylesheetHrefs_append, stylesheetHrefs_scriptTags,
        stylesheetHrefs_stylesheetLinks, ih, fresh_append]

theorem modulePreloadHrefs_groupTags {m : viteManifest} (b : String) :
    ∀ (groups : List (List String × List String)),
      (∀ k ∈ groupKeys groups, ∃ e, m.get k = some e) →
      List.Forall₂ (IsPreloadHref m b) (groupKeys groups)
        (modulePreloadHrefs (groupTags m b groups)) := by
  intro groups
  induction groups with
  | nil => intro _; exact List.Forall₂.nil
  | cons g gs ih =>
    intro h
    simp only [groupKeys, List.mem_append] at h
    simp only [groupKeys, groupTags, modulePreloadHrefs_append,
      modulePreloadHrefs_stylePreloadLinks, List.append_nil]
    exact List.rel_append (modulePreloadHrefs_preloadLinks b g.1 fun k hk => h k (Or.inl hk))
      (ih fun k hk => h k (Or.inr hk))

theorem stylePreloadHrefs_groupTags (m : viteManifest) (b : String)
    (groups : List (List String × List String)) :
    stylePreloadHrefs (groupTags m b groups) = (groupCSS groups).map fun c => b ++ c := by
  induction groups with
  | nil => rfl
  | cons g gs ih =>
    simp [groupTags, groupCSS, stylePreloadHrefs_append, stylePreloadHrefs_preloadLinks,
      stylePreloadHrefs_stylePreloadLinks, ih]

theorem stylesheetHrefs_groupTags (m : viteManifest) (b : String)
    (groups : List (List String × List String)) :
    stylesheetHrefs (groupTags m b groups) = [] := by
  induction groups with
  | nil => rfl
  | cons g gs ih =>
    simp [groupTags, stylesheetHrefs_append, stylesheetHrefs_preloadLinks,
      stylesheetHrefs_stylePreloadLinks, ih]

theorem string_append_left_cancel {b x y : String} (h : b ++ x = b ++ y) : x = y := by
  have hd := congrArg String.data h
  simp only [String.data_append, List.append_cancel_left_eq] at hd
  exact String.ext hd

/-! ### The claims -/

/-- C1: in production mode the hrefs of the modulepreload links are, in order, the
links of the keys of the depth-first pre-order of the import graph started from the
root list (roots in list order, a module before its imports, imports in listed order,
visited and absent keys contributing nothing), and that pre-order is unique. -/
theorem modulepreload_hrefs_follow_preorder (m : viteManifest) (eps : List String)
    (b : String) :
    ∃ out order, production m eps b = some out ∧
      Preorder m eps [] order ∧
      (∀ order', Preorder m eps [] order' → order' = order) ∧
      List.Forall₂ (IsPreloadHref m (normalizeBaseURL b)) order (modulePreloadHrefs out) := by
  obtain ⟨groups, hprod, hpre, _, _⟩ := production_eq m eps b
  refine ⟨_, groupKeys groups, hprod, hpre, fun o ho => ho.deterministic hpre, ?_⟩
  rw [modulePreloadHrefs_append, modulePreloadHrefs_entryTags, List.append_nil]
  exact modulePreloadHrefs_groupTags _ groups hpre.present

/-- C3: in production mode there is a duplicate-free list of keys, consisting exactly
of the manifest keys reachable from a manifest-present root through imports of present
modules, such that the modulepreload links of the fragment are the links of these keys,
one link per key: the number of links is the number of such keys. -/
theorem one_modulepreload_per_reachable_key (m : viteManifest) (eps : List String)
    (b : String) :
    ∃ out keys, production m eps b = some out ∧
      keys.Nodup ∧
      (∀ k, k ∈ keys ↔ ∃ r ∈ eps, Reach m r k) ∧
      List.Forall₂ (IsPreloadHref m (normalizeBaseURL b)) keys (modulePreloadHrefs out) ∧
      (modulePreloadHrefs out).length = keys.length := by
  obtain ⟨groups, hprod, hpre, _, _⟩ := production_eq m eps b
  have hall : List.Forall₂ (IsPreloadHref m (normalizeBaseURL b)) (groupKeys groups)
      (modulePreloadHrefs (groupTags m (normalizeBaseURL b) groups ++
        entryTags m (normalizeBaseURL b) [] eps)) := by
    rw [modulePreloadHrefs_append, modulePreloadHrefs_entryTags, List.append_nil]
    exact modulePreloadHrefs_groupTags _ groups hpre.present
  exact ⟨_, groupKeys groups, hprod, hpre.fresh_nodup.1, hpre.mem_iff_reach, hall,
    hall.length_eq.symm⟩

/-- C1, on the manifest `app -> {a.js, imports [vendor]}`, `vendor -> {v.js}`: the
pre-order is `[app, vendor]` and the modulepreload hrefs are `[base+a.js, base+v.js]`. -/
theorem modulepreload_hrefs_follow_preorder_witness :
    Preorder importsManifest ["app"] [] ["app", "vendor"] ∧
    (production importsManifest ["app"] "/static/").map modulePreloadHrefs =
      some ["/static/a.js", "/static/v.js"] := by
  have ha : importsManifest.get "app" =
      some { File := "a.js", Src := "app", IsEntry := true, Imports := ["vendor"] } := rfl
  have hv : importsManifest.get "vendor" = some { File := "v.js" } := rfl
  have hvendor : Preorder importsManifest ["vendor"] ([] ++ ["app"]) ["vendor"] :=
    Preorder.visit (by decide) hv (Preorder.done _) (Preorder.done _)
  have hpre : Preorder importsManifest ["app"] [] ["app", "vendor"] :=
    Preorder.visit (by decide) ha hvendor (Preorder.done _)
  obtain ⟨out, order, hprod, _, huniq, hall⟩ :=
    modulepreload_hrefs_follow_preorder importsManifest ["app"] "/static/"
  have horder := huniq _ hpre
  subst horder
  refine ⟨hpre, ?_⟩
  rw [hprod]
  simp only [List.forall₂_cons_left_iff, List.forall₂_nil_left_iff, IsPreloadHref] at hall
  obtain ⟨h1, _, ⟨e1, he1, rfl⟩, ⟨h2, _, ⟨e2, he2, rfl⟩, rfl, rfl⟩, hout⟩ := hall
  have hn : normalizeBaseURL "/static/" = "/static/" := by decide
  rw [ha] at he1
  rw [hv] at he2
  cases he1
  cases he2
  rw [Option.map_some', hout, hn]
  rfl

/-! #### C2: the preload links are grouped by root -/

theorem concatGroups_map (m : viteManifest) (b : String)
    (groups : List (List String × List String)) :
    concatGroups (groups.map fun g =>
      (g.1.map (preloadLink m b), g.2.map (stylePreloadLink b))) = groupTags m b groups := by
  induction groups with
  | nil => rfl
  | cons g gs ih => simp [concatGroups, groupTags, ih]

theorem all_isModulePreload_preloadLinks (m : viteManifest) (b : String) (ks : List String) :
    (ks.map (preloadLink m b)).all Tag.isModulePreload = true := by
  induction ks with
  | nil => rfl
  | cons k rest ih =>
    simp only [List.map_cons, List.all_cons, ih, Bool.and_true, preloadLink]
    split <;> rfl

theorem all_isStylePreload_stylePreloadLinks (b : String) (cs : List String) :
    (cs.map (stylePreloadLink b)).all Tag.isStylePreload = true := by
  induction cs with
  | nil => rfl
  | cons c rest ih =>
    simp only [List.map_cons, List.all_cons, ih, Bool.and_true, stylePreloadLink]
    rfl

theorem all_isEntryTag_scriptTags (b : String) (e : viteManifestEntry) :
    (scriptTags b e).all Tag.isEntryTag = true := by
  unfold scriptTags
  split <;> rfl

theorem all_isEntryTag_stylesheetLinks (b : String) (cs : List String) :
    (cs.map (stylesheetLink b)).all Tag.isEntryTag = true := by
  induction cs with
  | nil => rfl
  | cons c rest ih =>
    simp only [List.map_cons, List.all_cons, ih, Bool.and_true, stylesheetLink]
    rfl

theorem all_isEntryTag_entryTags (m : viteManifest) (b : String) (eps : List String) :
    ∀ seen, (entryTags m b seen eps).all Tag.isEntryTag = true := by
  induction eps with
  | nil => intro _; rfl
  | cons r rest ih =>
    intro seen
    simp only [entryTags]
    split
    · exact ih _
    · rw [List.all_append, List.all_append, all_isEntryTag_scriptTags,
        all_isEntryTag_stylesheetLinks, ih]
      rfl

/-- C2, as stated, fails on the manifest of `TestAssets_Production_MultipleEntryPoints`:
the preload-as-style link of the first root is written before the modulepreload link
of the second root. -/
theorem modulepreloads_first_counterexample :
    production multipleEntryManifest ["resources/js/app.js", "resources/js/admin.js"]
        "/static/" =
      some [Tag.modulePreload "/static/assets/app.12345.js",
        Tag.stylePreload "/static/assets/app.abcde.css",
        Tag.modulePreload "/static/assets/admin.67890.js",
        Tag.stylePreload "/static/assets/admin.fghij.css",
        Tag.moduleScript "/static/assets/app.12345.js",
        Tag.stylesheet "/static/assets/app.abcde.css",
        Tag.moduleScript "/static/assets/admin.67890.js",
        Tag.stylesheet "/static/assets/admin.fghij.css"] ∧
    ¬ ModulePreloadsFirst
      [Tag.modulePreload "/static/assets/app.12345.js",
        Tag.stylePreload "/static/assets/app.abcde.css",
        Tag.modulePreload "/static/assets/admin.67890.js",
        Tag.stylePreload "/static/assets/admin.fghij.css",
        Tag.moduleScript "/static/assets/app.12345.js",
        Tag.stylesheet "/static/assets/app.abcde.css",
        Tag.moduleScript "/static/assets/admin.67890.js",
        Tag.stylesheet "/static/assets/admin.fghij.css"] := by
  refine ⟨by decide, fun h => ?_⟩
  exact h [Tag.modulePreload "/static/assets/app.12345.js"] []
    [Tag.stylePreload "/static/assets/admin.fghij.css",
      Tag.moduleScript "/static/assets/app.12345.js",
      Tag.stylesheet "/static/assets/app.abcde.css",
      Tag.moduleScript "/static/assets/admin.67890.js",
      Tag.stylesheet "/static/assets/admin.fghij.css"]
    "/static/assets/app.abcde.css" "/static/assets/admin.67890.js" rfl

theorem forall₂_exists_left_tag {R : String → Tag → Prop} {l1 : List String}
    {l2 : List Tag} (h : List.Forall₂ R l1 l2) : ∀ t ∈ l2, ∃ k ∈ l1, R k t := by
  induction h with
  | nil => intro t ht; cases ht
  | cons hr _ ih =>
    intro t ht
    rcases List.mem_cons.1 ht with rfl | ht
    · exact ⟨_, List.mem_cons_self _ _, hr⟩
    · obtain ⟨k, hk, hrk⟩ := ih t ht
      exact ⟨k, List.mem_cons_of_mem _ hk, hrk⟩

theorem forall₂_preloadLinks {m : viteManifest} (b : String) :
    ∀ (ks : List String), (∀ k ∈ ks, ∃ e, m.get k = some e) →
      List.Forall₂
        (fun k t => ∃ e, m.get k = some e ∧ t = Tag.modulePreload (b ++ e.File))
        ks (ks.map (preloadLink m b)) := by
  intro ks
  induction ks with
  | nil => intro _; exact List.Forall₂.nil
  | cons k rest ih =>
    intro h
    obtain ⟨e, he⟩ := h k (List.mem_cons_self _ _)
    refine List.Forall₂.cons ⟨e, he, ?_⟩ (ih fun x hx => h x (List.mem_cons_of_mem _ hx))
    simp only [preloadLink, he]

theorem preloadPass_groups {m : viteManifest} {b : String} {fuel : Nat} :
    ∀ (eps : List String) (st st' : ProdState), preloadPass m b fuel eps st = some st' →
      ∃ groups : List (List Tag × List Tag),
        st'.sb = st.sb ++ concatGroups groups ∧
        PreloadGroups m b st.includedJSPreload st.includedCSSPreload
          (presentRoots m eps) groups := by
  intro eps
  induction eps with
  | nil =>
    intro st st' h
    simp only [preloadPass, Option.some.injEq] at h
    subst h
    exact ⟨[], by simp [concatGroups], PreloadGroups.done _ _⟩
  | cons r rest ih =>
    intro st st' h
    simp only [preloadPass] at h
    cases hget : m.get r with
    | none =>
      simp only [hget] at h
      obtain ⟨groups, hsb, hgroups⟩ := ih _ _ h
      exact ⟨groups, hsb, by simpa [presentRoots, hget] using hgroups⟩
    | some entry =>
      simp only [hget] at h
      cases hjs : preloadJS m b fuel r st with
      | none => simp [hjs] at h
      | some st1 =>
        simp only [hjs] at h
        obtain ⟨keys, hpre, rfl⟩ := preloadJS_sound _ _ _ _ hjs
        obtain ⟨groups, hsb, hgroups⟩ := ih _ _ h
        have hroots : presentRoots m (r :: rest) = r :: presentRoots m rest := by
          simp [presentRoots, hget]
        refine ⟨(keys.map (preloadLink m b),
          ((dedupFirst entry.CSS).filter fun c => c ∉ st.includedCSSPreload).map
            (fun c => Tag.stylePreload (b ++ c))) :: groups, ?_, ?_⟩
        · rw [hsb]
          simp only [preloadCSS_eq, ProdState.addPreloads, fresh_eq_filter, concatGroups,
            List.append_assoc]
          rfl
        · rw [hroots]
          refine PreloadGroups.root hget hpre (forall₂_preloadLinks b keys hpre.present) rfl ?_
          simpa [preloadCSS_eq, ProdState.addPreloads, fresh_eq_filter] using hgroups

theorem PreloadGroups.length_eq {m : viteManifest} {b : String}
    {seenJS seenCSS roots : List String} {groups : List (List Tag × List Tag)}
    (h : PreloadGroups m b seenJS seenCSS roots groups) : groups.length = roots.length := by
  induction h with
  | done _ _ => rfl
  | root _ _ _ _ _ ih => simp [ih]

theorem PreloadGroups.all_links {m : viteManifest} {b : String}
    {seenJS seenCSS roots : List String} {groups : List (List Tag × List Tag)}
    (h : PreloadGroups m b seenJS seenCSS roots groups) :
    groups.all (fun g => g.1.all Tag.isModulePreload && g.2.all Tag.isStylePreload) = true := by
  induction h with
  | done _ _ => rfl
  | @root r entry keys rest seenJS seenCSS g gs _ _ hlinks hcss _ ih =>
    rw [List.all_cons, ih, Bool.and_true, Bool.and_eq_true]
    constructor
    · rw [List.all_eq_true]
      intro t ht
      obtain ⟨k, _, e, _, rfl⟩ := forall₂_exists_left_tag hlinks t ht
      rfl
    · rw [hcss, List.all_eq_true]
      intro t ht
      obtain ⟨c, _, rfl⟩ := List.mem_map.1 ht
      rfl

/-- C2, amended: in production mode the fragment is a preload part followed by the
entry tags; the preload part is one group per manifest-present root, in list order,
and the group of a root is the modulepreload links of the keys that the depth-first
pre-order from that root newly discovers, followed by the preload-as-style links of
that root's `css` files that no earlier root has preloaded. -/
theorem preload_links_grouped_by_root (m : viteManifest) (eps : List String) (b : String) :
    ∃ (out : List Tag) (groups : List (List Tag × List Tag)) (entry : List Tag),
      production m eps b = some out ∧
      out = concatGroups groups ++ entry ∧
      PreloadGroups m (normalizeBaseURL b) [] [] (presentRoots m eps) groups ∧
      groups.length = (presentRoots m eps).length ∧
      groups.all (fun g => g.1.all Tag.isModulePreload && g.2.all Tag.isStylePreload) = true ∧
      entry.all Tag.isEntryTag = true := by
  obtain ⟨st', hst'⟩ :=
    preloadPass_total (normalizeBaseURL b) (Nat.lt_succ_self m.length) eps {}
  obtain ⟨groups, hsb, hgroups⟩ := preloadPass_groups _ _ _ hst'
  refine ⟨_, groups, entryTags m (normalizeBaseURL b) st'.includedCSS eps, ?_, rfl, hgroups,
    hgroups.length_eq, hgroups.all_links, all_isEntryTag_entryTags m _ eps _⟩
  simp only [production, productionFuel]
  rw [show m.length + 1 = Nat.succ m.length from rfl, hst']
  simp only [entryPass_eq, hsb, List.nil_append]

/-! #### C4: termination -/

theorem length_le_of_nodup_present {m : viteManifest} {keys : List String}
    (hnodup : keys.Nodup) (hpresent : ∀ x ∈ keys, ∃ e, m.get x = some e) :
    keys.length ≤ m.length := by
  have hsub : keys.toFinset ⊆ (m.map Prod.fst).toFinset := by
    intro x hx
    obtain ⟨e, he⟩ := hpresent x (List.mem_toFinset.1 hx)
    exact List.mem_toFinset.2 (get_some_mem_keys he)
  calc keys.length = keys.toFinset.card := (List.toFinset_card_of_nodup hnodup).symm
    _ ≤ (m.map Prod.fst).toFinset.card := Finset.card_le_card hsub
    _ ≤ (m.map Prod.fst).length := List.toFinset_card_le _
    _ = m.length := by simp

/-- C4: for every manifest, cyclic or not, the `preloadJS` traversal returns as soon
as its recursion depth may exceed the number of manifest entries, from every key and
every state; the production branch then returns a fragment that does not depend on
the depth bound, whose modulepreload links belong to pairwise distinct manifest keys
and number at most the manifest entries. -/
theorem preload_traversal_terminates (m : viteManifest) (eps : List String) (b : String)
    (fuel : Nat) (hfuel : m.length < fuel) :
    (∀ (k : String) (st : ProdState),
      ∃ st', preloadJS m (normalizeBaseURL b) fuel k st = some st') ∧
    ∃ out keys, productionFuel fuel m eps b = some out ∧
      production m eps b = some out ∧
      keys.Nodup ∧
      List.Forall₂ (IsPreloadHref m (normalizeBaseURL b)) keys (modulePreloadHrefs out) ∧
      (modulePreloadHrefs out).length ≤ m.length := by
  refine ⟨fun k st => preloadJS_total_of_length _ hfuel k st, ?_⟩
  obtain ⟨g1, hp1, hpre1, _, _⟩ := productionFuel_eq hfuel eps b
  have hall : List.Forall₂ (IsPreloadHref m (normalizeBaseURL b)) (groupKeys g1)
      (modulePreloadHrefs (groupTags m (normalizeBaseURL b) g1 ++
        entryTags m (normalizeBaseURL b) [] eps)) := by
    rw [modulePreloadHrefs_append, modulePreloadHrefs_entryTags, List.append_nil]
    exact modulePreloadHrefs_groupTags _ g1 hpre1.present
  refine ⟨_, groupKeys g1, hp1, ?_, hpre1.fresh_nodup.1, hall, ?_⟩
  · rw [← productionFuel_eq_production hfuel, hp1]
  · rw [← hall.length_eq]
    exact length_le_of_nodup_present hpre1.fresh_nodup.1 hpre1.present

/-- C4, on a manifest with the cycle `a -> b -> a` and the self-import `b -> b`. -/
theorem preload_traversal_terminates_witness :
    cyclicManifest.length < 3 ∧
    ((∀ (k : String) (st : ProdState),
      ∃ st', preloadJS cyclicManifest (normalizeBaseURL "/static/") 3 k st = some st') ∧
    ∃ out keys, productionFuel 3 cyclicManifest ["a"] "/static/" = some out ∧
      production cyclicManifest ["a"] "/static/" = some out ∧
      keys.Nodup ∧
      List.Forall₂ (IsPreloadHref cyclicManifest (normalizeBaseURL "/static/")) keys
        (modulePreloadHrefs out) ∧
      (modulePreloadHrefs out).length ≤ cyclicManifest.length) :=
  ⟨by decide, preload_traversal_terminates cyclicManifest ["a"] "/static/" 3 (by decide)⟩

/-- C5: in production mode the hrefs of the preload-as-style links are the base URL
followed by each element of the order-preserving deduplication of the concatenated
`css` lists of the manifest-present roots, in list order; imports play no part. -/
theorem style_preload_hrefs_are_root_css (m : viteManifest) (eps : List String)
    (b : String) :
    (production m eps b).map stylePreloadHrefs =
      some ((dedupFirst (rootCSS m eps)).map fun c => normalizeBaseURL b ++ c) := by
  obtain ⟨groups, hprod, _, hcss, _⟩ := production_eq m eps b
  rw [hprod, Option.map_some', stylePreloadHrefs_append, stylePreloadHrefs_entryTags,
    List.append_nil, stylePreloadHrefs_groupTags, hcss]

/-- C6: in production mode the stylesheet links of one fragment carry pairwise
distinct paths, and the very same paths appear, once each, as preload-as-style
links: the two dedup sets are separate. -/
theorem stylesheet_links_distinct (m : viteManifest) (eps : List String) (b : String) :
    ∃ (out : List Tag) (paths : List String), production m eps b = some out ∧
      paths.Nodup ∧
      stylesheetHrefs out = paths.map (fun c => normalizeBaseURL b ++ c) ∧
      (stylesheetHrefs out).Nodup ∧
      stylePreloadHrefs out = paths.map (fun c => normalizeBaseURL b ++ c) := by
  obtain ⟨groups, hprod, _, hcss, _⟩ := production_eq m eps b
  have hsheet : stylesheetHrefs (groupTags m (normalizeBaseURL b) groups ++
      entryTags m (normalizeBaseURL b) [] eps) =
      (dedupFirst (rootCSS m eps)).map fun c => normalizeBaseURL b ++ c := by
    rw [stylesheetHrefs_append, stylesheetHrefs_groupTags, stylesheetHrefs_entryTags,
      fresh_nil, List.nil_append]
  refine ⟨_, dedupFirst (rootCSS m eps), hprod, dedupFirst_nodup _, hsheet, ?_, ?_⟩
  · rw [hsheet]
    exact (dedupFirst_nodup _).map fun x y h => string_append_left_cancel h
  · rw [stylePreloadHrefs_append, stylePreloadHrefs_entryTags, List.append_nil,
      stylePreloadHrefs_groupTags, hcss]

/-! #### C7: the fragment of a single entry with one stylesheet -/

theorem hasSuffix_toLower_js {f : String} (hf : hasSuffix f ".js" = true) :
    hasSuffix (toLower f) ".js" = true := by
  unfold hasSuffix at hf ⊢
  rw [List.isSuffixOf_iff_suffix] at hf ⊢
  obtain ⟨t, ht⟩ := hf
  refine ⟨t.map Char.toLower, ?_⟩
  simp only [toLower, ← ht, List.map_append]
  rfl

/-- C7: for a base URL `b` ending in `/`, a file `f` ending in `.js` and a stylesheet
`c`, a single root whose manifest entry has file `f`, css `[c]` and no imports yields
exactly the modulepreload link, the preload-as-style link, the module script and the
stylesheet link, in this order. -/
theorem single_entry_with_css_fragment (m : viteManifest) (r b f c : String)
    (e : viteManifestEntry) (hget : m.get r = some e) (hfile : e.File = f)
    (hcss : e.CSS = [c]) (himp : e.Imports = []) (hb : hasSuffix b "/" = true)
    (hf : hasSuffix f ".js" = true) :
    productionHTML m [r] b =
      some ("<link rel=\"modulepreload\" href=\"" ++ b ++ f ++ "\">" ++
        "<link rel=\"preload\" href=\"" ++ b ++ c ++ "\" as=\"style\">" ++
        "<script type=\"module\" src=\"" ++ b ++ f ++ "\"></script>" ++
        "<link rel=\"stylesheet\" href=\"" ++ b ++ c ++ "\">") := by
  subst hfile
  have hlow := hasSuffix_toLower_js hf
  have htags : production m [r] b =
      some [Tag.modulePreload (b ++ e.File), Tag.stylePreload (b ++ c),
        Tag.moduleScript (b ++ e.File), Tag.stylesheet (b ++ c)] := by
    simp [production, productionFuel, preloadPass, preloadJS, hget, himp, rangeImports,
      preloadCSS, hcss, entryPass, writeEntryScript, hlow, linkCSS, normalizeBaseURL, hb]
  rw [productionHTML, htags, Option.map_some']
  simp only [renderAll, Tag.render, String.append_assoc, String.append_empty]

/-- C7, on the manifest of `TestAssets_Production_SingleEntryPoint_WithCSS`. -/
theorem single_entry_with_css_fragment_witness :
    productionHTML singleEntryManifest ["resources/js/app.js"] "/static/" =
      some ("<link rel=\"modulepreload\" href=\"" ++ "/static/" ++ "assets/app.12345.js" ++
        "\">" ++
        "<link rel=\"preload\" href=\"" ++ "/static/" ++ "assets/app.67890.css" ++
        "\" as=\"style\">" ++
        "<script type=\"module\" src=\"" ++ "/static/" ++ "assets/app.12345.js" ++
        "\"></script>" ++
        "<link rel=\"stylesheet\" href=\"" ++ "/static/" ++ "assets/app.67890.css" ++ "\">") :=
  single_entry_with_css_fragment singleEntryManifest "resources/js/app.js" "/static/"
    "assets/app.12345.js" "assets/app.67890.css"
    { File := "assets/app.12345.js", Src := "resources/js/app.js", IsEntry := true,
      CSS := ["assets/app.67890.css"] }
    rfl rfl rfl rfl (by decide) (by decide)

/-! #### C8: roots that are not manifest keys -/

theorem preloadPass_absent {m : viteManifest} (b : String) (fuel : Nat) :
    ∀ (eps : List String) (st : ProdState), (∀ r ∈ eps, m.get r = none) →
      preloadPass m b fuel eps st = some st := by
  intro eps
  induction eps with
  | nil => intro st _; rfl
  | cons r rest ih =>
    intro st h
    simp only [preloadPass, h r (List.mem_cons_self _ _)]
    exact ih st fun x hx => h x (List.mem_cons_of_mem _ hx)

theorem entryPass_absent {m : viteManifest} (b : String) :
    ∀ (eps : List String) (st : ProdState), (∀ r ∈ eps, m.get r = none) →
      entryPass m b eps st = st := by
  intro eps
  induction eps with
  | nil => intro st _; rfl
  | cons r rest ih =>
    intro st h
    simp only [entryPass, h r (List.mem_cons_self _ _)]
    exact ih st fun x hx => h x (List.mem_cons_of_mem _ hx)

/-- C8: in production mode, when no key of the root list is a manifest key, the
fragment is the empty string. -/
theorem absent_roots_give_empty_fragment (m : viteManifest) (eps : List String)
    (b : String) (habsent : ∀ r ∈ eps, m.get r = none) :
    productionHTML m eps b = some "" := by
  simp only [productionHTML, production, productionFuel,
    preloadPass_absent _ _ eps _ habsent, entryPass_absent _ eps _ habsent]
  rfl

/-- C8, on `TestAssets_Production_EntryPointNotInManifest`. -/
theorem absent_roots_give_empty_fragment_witness :
    (∀ r ∈ ["resources/js/missing.js"], singleEntryManifest.get r = none) ∧
    productionHTML singleEntryManifest ["resources/js/missing.js"] "/static/" = some "" :=
  ⟨by decide,
    absent_roots_give_empty_fragment singleEntryManifest ["resources/js/missing.js"]
      "/static/" (by decide)⟩

/-! #### C9: imports of keys that the manifest does not list -/

theorem lookup_map_entry (f : String → viteManifestEntry → viteManifestEntry)
    (m : viteManifest) (x : String) :
    List.lookup x (m.map fun p => (p.1, f p.1 p.2)) = (List.lookup x m).map (f x) := by
  induction m with
  | nil => rfl
  | cons p rest ih =>
    obtain ⟨a, e⟩ := p
    by_cases hx : x = a
    · subst hx
      simp [List.lookup]
    · have hxa : (x == a) = false := by simpa using hx
      simp only [List.map_cons, List.lookup, hxa]
      exact ih

theorem get_dropImport (target : String) (i : Nat) (m : viteManifest) (x : String) :
    (dropImport target i m).get x =
      (m.get x).map fun e =>
        if x = target then { e with Imports := e.Imports.eraseIdx i } else e :=
  lookup_map_entry
    (fun a e => if a = target then { e with Imports := e.Imports.eraseIdx i } else e) m x

theorem length_dropImport (target : String) (i : Nat) (m : viteManifest) :
    (dropImport target i m).length = m.length := by
  simp [dropImport]

theorem preloadJS_absent {m : viteManifest} {b : String} {k : String}
    (hk : m.get k = none) (fuel : Nat) (st st' : ProdState)
    (h : preloadJS m b fuel k st = some st') : st' = st := by
  cases fuel with
  | zero => simp [preloadJS] at h
  | succ fuel =>
    simp only [preloadJS, hk] at h
    split at h <;> simpa using h.symm

theorem rangeImports_eraseIdx {g : String → ProdState → Option ProdState} {k : String}
    (hg : ∀ st st', g k st = some st' → st' = st) :
    ∀ (l : List String) (i : Nat) (st st' : ProdState), l[i]? = some k →
      rangeImports g l st = some st' → rangeImports g (l.eraseIdx i) st = some st' := by
  intro l
  induction l with
  | nil => intro i st st' hi; simp at hi
  | cons a rest ih =>
    intro i st st' hi h
    simp only [rangeImports] at h
    cases hga : g a st with
    | none => simp [hga] at h
    | some st1 =>
      simp only [hga] at h
      cases i with
      | zero =>
        simp only [List.getElem?_cons_zero, Option.some.injEq] at hi
        subst hi
        have := hg _ _ hga
        subst this
        simpa using h
      | succ j =>
        simp only [List.getElem?_cons_succ] at hi
        simp only [List.eraseIdx_cons_succ, rangeImports, hga]
        exact ih j _ _ hi h

theorem preloadJS_dropImport {m : viteManifest} {b k target : String} {i : Nat}
    (hk : m.get k = none)
    (hi : ∀ e, m.get target = some e → e.Imports[i]? = some k) :
    ∀ (fuel : Nat) (x : String) (st st' : ProdState),
      preloadJS m b fuel x st = some st' →
      preloadJS (dropImport target i m) b fuel x st = some st' := by
  have hk' : (dropImport target i m).get k = none := by
    rw [get_dropImport, hk]; rfl
  intro fuel
  induction fuel with
  | zero => intro x st st' h; simp [preloadJS] at h
  | succ fuel ih =>
    intro x st st' h
    rw [preloadJS] at h ⊢
    split
    · next hx => simpa [hx] using h
    · next hx =>
      simp only [hx, if_false] at h
      cases hget : m.get x with
      | none =>
        simp only [hget] at h
        simp only [get_dropImport, hget, Option.map_none']
        exact h
      | some e =>
        simp only [hget] at h
        have h' := rangeImports_imp ih _ _ _ h
        simp only [get_dropImport, hget, Option.map_some']
        by_cases ht : x = target
        · simp only [ht, if_true]
          have hidx : e.Imports[i]? = some k := hi e (ht ▸ hget)
          have := rangeImports_eraseIdx (fun s s' hs => preloadJS_absent hk' fuel s s' hs)
            _ i _ _ hidx h'
          simpa [ht] using this
        · simp only [ht, if_false]
          exact h'

theorem preloadPass_dropImport {m : viteManifest} {b k target : String} {i : Nat}
    (hk : m.get k = none)
    (hi : ∀ e, m.get target = some e → e.Imports[i]? = some k) (fuel : Nat) :
    ∀ (eps : List String) (st st' : ProdState),
      preloadPass m b fuel eps st = some st' →
      preloadPass (dropImport target i m) b fuel eps st = some st' := by
  intro eps
  induction eps with
  | nil => intro st st' h; exact h
  | cons r rest ih =>
    intro st st' h
    simp only [preloadPass] at h ⊢
    cases hget : m.get r with
    | none =>
      simp only [hget] at h
      simp only [get_dropImport, hget, Option.map_none']
      exact ih _ _ h
    | some e =>
      simp only [hget] at h
      cases hjs : preloadJS m b fuel r st with
      | none => simp [hjs] at h
      | some st1 =>
        simp only [hjs] at h
        simp only [get_dropImport, hget, Option.map_some',
          preloadJS_dropImport hk hi _ _ _ _ hjs]
        have := ih _ _ h
        by_cases ht : r = target
        · simpa [ht] using this
        · simpa [ht] using this

theorem entryPass_dropImport (m : viteManifest) (b target : String) (i : Nat) :
    ∀ (eps : List String) (st : ProdState),
      entryPass (dropImport target i m) b eps st = entryPass m b eps st := by
  intro eps
  induction eps with
  | nil => intro st; rfl
  | cons r rest ih =>
    intro st
    simp only [entryPass, get_dropImport]
    cases hget : m.get r with
    | none => simpa using ih st
    | some e =>
      by_cases ht : r = target
      · simp [ht, ih, writeEntryScript]
      · simp [ht, ih]

/-- C9: in production mode, when `k` is not a manifest key, deleting an occurrence of
`k` (the one at index `i`) from the imports list of any entry leaves the fragment
unchanged, and a fragment is produced. -/
theorem absent_import_is_noop (m : viteManifest) (eps : List String) (b : String)
    (k target : String) (i : Nat) (hk : m.get k = none)
    (hi : ∃ e, m.get target = some e ∧ e.Imports[i]? = some k) :
    productionHTML (dropImport target i m) eps b = productionHTML m eps b ∧
    ∃ html, productionHTML m eps b = some html := by
  obtain ⟨e, he, hidx⟩ := hi
  have hi' : ∀ e', m.get target = some e' → e'.Imports[i]? = some k := by
    intro e' he'
    rw [he] at he'
    cases he'
    exact hidx
  obtain ⟨st', hst'⟩ :=
    preloadPass_total (normalizeBaseURL b) (Nat.lt_succ_self m.length) eps {}
  have hdrop := preloadPass_dropImport hk hi' _ _ _ _ hst'
  have hprod : production (dropImport target i m) eps b = production m eps b := by
    simp only [production, productionFuel, length_dropImport, hdrop,
      entryPass_dropImport]
    rw [show m.length + 1 = Nat.succ m.length from rfl, hst']
  refine ⟨by simp only [productionHTML, hprod], ?_⟩
  obtain ⟨groups, hg, _⟩ := production_eq m eps b
  exact ⟨_, by rw [productionHTML, hg]; rfl⟩

/-- C9, on a manifest whose entry imports the unlisted chunk `_missing.js`. -/
theorem absent_import_is_noop_witness :
    danglingImportManifest.get "_missing.js" = none ∧
    (∃ e, danglingImportManifest.get "resources/js/app.js" = some e ∧
      e.Imports[0]? = some "_missing.js") ∧
    (productionHTML (dropImport "resources/js/app.js" 0 danglingImportManifest)
        ["resources/js/app.js"] "/static/" =
      productionHTML danglingImportManifest ["resources/js/app.js"] "/static/" ∧
    ∃ html, productionHTML danglingImportManifest ["resources/js/app.js"] "/static/" =
      some html) :=
  ⟨by decide, ⟨_, rfl, rfl⟩,
    absent_import_is_noop danglingImportManifest ["resources/js/app.js"] "/static/"
      "_missing.js" "resources/js/app.js" 0 (by decide) ⟨_, rfl, rfl⟩⟩

/-! #### C10: the trailing separator of the base URL -/

theorem normalizeBaseURL_append_slash {b : String} (hb : hasSuffix b "/" = false) :
    normalizeBaseURL (b ++ "/") = normalizeBaseURL b := by
  have hs : hasSuffix (b ++ "/") "/" = true := by
    unfold hasSuffix
    rw [List.isSuffixOf_iff_suffix, String.data_append]
    exact List.suffix_append _ _
  simp [normalizeBaseURL, hs, hb]

/-- C10: in production mode a base URL `b` that does not end in `/` gives the same
fragment as the base URL `b ++ "/"`. -/
theorem base_url_trailing_slash_irrelevant (m : viteManifest) (eps : List String)
    (b : String) (hb : hasSuffix b "/" = false) :
    productionHTML m eps b = productionHTML m eps (b ++ "/") := by
  simp only [productionHTML, production, productionFuel, normalizeBaseURL_append_slash hb]

/-- C10, on `TestAssets_BaseURL_NoTrailingSlash` and `TestAssets_BaseURL_TrailingSlash`. -/
theorem base_url_trailing_slash_irrelevant_witness :
    hasSuffix "/custom/static" "/" = false ∧
    productionHTML singleEntryManifest ["resources/js/app.js"] "/custom/static" =
      productionHTML singleEntryManifest ["resources/js/app.js"] ("/custom/static" ++ "/") :=
  ⟨by decide,
    base_url_trailing_slash_irrelevant singleEntryManifest ["resources/js/app.js"]
      "/custom/static" (by decide)⟩

/-! #### C11: the trailing separator of the normalized base URL -/

theorem hasSuffix_iff (s t : String) : hasSuffix s t = true ↔ t.data <:+ s.data := by
  unfold hasSuffix
  exact List.isSuffixOf_iff_suffix

theorem hasSuffix_append_slash_double (b : String) :
    hasSuffix (b ++ "/") "//" = hasSuffix b "/" := by
  rw [Bool.eq_iff_iff, hasSuffix_iff, hasSuffix_iff]
  constructor
  · rintro ⟨t, ht⟩
    refine ⟨t, ?_⟩
    have h2 : (t ++ "/".data) ++ "/".data = b.data ++ "/".data := by
      rw [List.append_assoc]
      exact ht
    exact List.append_cancel_right h2
  · rintro ⟨t, ht⟩
    refine ⟨t, ?_⟩
    rw [String.data_append, ← ht, List.append_assoc]
    rfl

theorem hasSuffix_slash_of_double {b : String} (h : hasSuffix b "//" = true) :
    hasSuffix b "/" = true := by
  rw [hasSuffix_iff] at h ⊢
  obtain ⟨t, ht⟩ := h
  refine ⟨t ++ "/".data, ?_⟩
  rw [List.append_assoc]
  exact ht

/-- C11, as stated, fails on the configured value `/static//`: it is used unchanged
and ends with two separators. -/
theorem normalized_base_url_one_slash_counterexample :
    normalizeBaseURL "/static//" = "/static//" ∧
    hasSuffix (normalizeBaseURL "/static//") "//" = true := by
  decide

/-- C11, amended: the normalized base URL always ends with `/`; it is the configured
value itself when that ends with `/` and the configured value with one `/` appended
otherwise, so it ends with two separators exactly when the configured value did. -/
theorem normalized_base_url_trailing_slash (b : String) :
    hasSuffix (normalizeBaseURL b) "/" = true ∧
    hasSuffix (normalizeBaseURL b) "//" = hasSuffix b "//" ∧
    normalizeBaseURL b = (if hasSuffix b "/" = true then b else b ++ "/") := by
  cases hb : hasSuffix b "/" with
  | true => simp [normalizeBaseURL, hb]
  | false =>
    have hs : hasSuffix (b ++ "/") "/" = true := by
      rw [hasSuffix_iff, String.data_append]
      exact List.suffix_append _ _
    have hd : hasSuffix b "//" = false := by
      cases h : hasSuffix b "//" with
      | false => rfl
      | true => rw [hasSuffix_slash_of_double h] at hb; cases hb
    simp [normalizeBaseURL, hb, hs, hd, hasSuffix_append_slash_double]

/-! #### C15: the stylesheets of imported modules -/

theorem mem_rootCSS (m : viteManifest) (eps : List String) (c : String) :
    c ∈ rootCSS m eps ↔ ∃ r ∈ eps, ∃ e, m.get r = some e ∧ c ∈ e.CSS := by
  induction eps with
  | nil => simp [rootCSS]
  | cons r rest ih =>
    cases hget : m.get r with
    | none =>
      simp only [rootCSS, hget, ih, List.mem_cons]
      constructor
      · rintro ⟨r', hr', h⟩
        exact ⟨r', Or.inr hr', h⟩
      · rintro ⟨r', hr' | hr', e, he, hc⟩
        · rw [hr', hget] at he; cases he
        · exact ⟨r', hr', e, he, hc⟩
    | some entry =>
      simp only [rootCSS, hget, List.mem_append, ih, List.mem_cons]
      constructor
      · rintro (hc | ⟨r', hr', h⟩)
        · exact ⟨r, Or.inl rfl, entry, hget, hc⟩
        · exact ⟨r', Or.inr hr', h⟩
      · rintro ⟨r', hr' | hr', e, he, hc⟩
        · rw [hr', hget] at he; cases he; exact Or.inl hc
        · exact Or.inr ⟨r', hr', e, he, hc⟩

/-- C15, as stated, fails on a root `app` importing `vendor`, which has the stylesheet
`v.css`: the fragment preloads both modules but has no stylesheet link at all. -/
theorem imported_css_counterexample :
    production cssImportManifest ["app"] "/static/" =
      some [Tag.modulePreload "/static/a.js", Tag.modulePreload "/static/v.js",
        Tag.moduleScript "/static/a.js"] ∧
    (production cssImportManifest ["app"] "/static/").map stylesheetHrefs = some [] := by
  decide

/-- C15, amended: in production mode the stylesheet links, like the preload-as-style
links, name exactly the `css` files of the manifest-present listed roots; the `css`
of a module that is only reached through imports gets neither kind of link. -/
theorem css_links_only_for_listed_roots (m : viteManifest) (eps : List String)
    (b : String) :
    ∃ out, production m eps b = some out ∧
      ∀ h : String,
        (h ∈ stylesheetHrefs out ↔
          ∃ r ∈ eps, ∃ e, m.get r = some e ∧ ∃ c ∈ e.CSS, h = normalizeBaseURL b ++ c) ∧
        (h ∈ stylePreloadHrefs out ↔
          ∃ r ∈ eps, ∃ e, m.get r = some e ∧ ∃ c ∈ e.CSS, h = normalizeBaseURL b ++ c) := by
  obtain ⟨groups, hprod, _, hcss, _⟩ := production_eq m eps b
  refine ⟨_, hprod, fun h => ?_⟩
  have hmem : h ∈ (dedupFirst (rootCSS m eps)).map (fun c => normalizeBaseURL b ++ c) ↔
      ∃ r ∈ eps, ∃ e, m.get r = some e ∧ ∃ c ∈ e.CSS, h = normalizeBaseURL b ++ c := by
    simp only [List.mem_map, mem_dedupFirst, mem_rootCSS]
    constructor
    · rintro ⟨c, ⟨r, hr, e, he, hc⟩, rfl⟩
      exact ⟨r, hr, e, he, c, hc, rfl⟩
    · rintro ⟨r, hr, e, he, c, hc, rfl⟩
      exact ⟨c, ⟨r, hr, e, he, hc⟩, rfl⟩
  constructor
  · rw [stylesheetHrefs_append, stylesheetHrefs_groupTags, stylesheetHrefs_entryTags,
      fresh_nil, List.nil_append]
    exact hmem
  · rw [stylePreloadHrefs_append, stylePreloadHrefs_entryTags, List.append_nil,
      stylePreloadHrefs_groupTags, ← hcss]
    exact hmem

/-! #### C16: modulepreload links and file paths -/

theorem get_some_mem {m : viteManifest} {k : String} {e : viteManifestEntry}
    (h : m.get k = some e) : (k, e) ∈ m := by
  induction m with
  | nil => simp [viteManifest.get] at h
  | cons p rest ih =>
    obtain ⟨a, e0⟩ := p
    by_cases hk : k = a
    · subst hk
      simp only [viteManifest.get, List.lookup, beq_self_eq_true, Option.some.injEq] at h
      subst h
      exact List.mem_cons_self _ _
    · have hka : (k == a) = false := by simpa using hk
      simp only [viteManifest.get, List.lookup, hka] at h
      exact List.mem_cons_of_mem _ (ih h)

theorem key_eq_of_file_eq {m : viteManifest}
    (hfiles : (m.map fun p => p.2.File).Nodup) {k1 k2 : String}
    {e1 e2 : viteManifestEntry} (h1 : m.get k1 = some e1) (h2 : m.get k2 = some e2)
    (hfile : e1.File = e2.File) : k1 = k2 := by
  have := List.inj_on_of_nodup_map hfiles (get_some_mem h1) (get_some_mem h2) hfile
  exact congrArg Prod.fst this

theorem forall₂_exists_left {R : String → String → Prop} {l1 l2 : List String}
    (h : List.Forall₂ R l1 l2) : ∀ x ∈ l2, ∃ a ∈ l1, R a x := by
  induction h with
  | nil => intro x hx; cases hx
  | cons hr _ ih =>
    intro x hx
    rcases List.mem_cons.1 hx with rfl | hx
    · exact ⟨_, List.mem_cons_self _ _, hr⟩
    · obtain ⟨a, ha, hra⟩ := ih x hx
      exact ⟨a, List.mem_cons_of_mem _ ha, hra⟩

theorem forall₂_nodup {R : String → String → Prop} {l1 l2 : List String}
    (hR : ∀ a b x, R a x → R b x → a = b) (h : List.Forall₂ R l1 l2)
    (hnodup : l1.Nodup) : l2.Nodup := by
  induction h with
  | nil => exact List.nodup_nil
  | @cons a x l1 l2 hr hrest ih =>
    rw [List.nodup_cons] at hnodup ⊢
    refine ⟨fun hx => ?_, ih hnodup.2⟩
    obtain ⟨c, hc, hrc⟩ := forall₂_exists_left hrest x hx
    exact hnodup.1 (hR a c x hr hrc ▸ hc)

/-- C16, as stated, fails when two manifest keys name the same file: the entry imports
`x` and `y`, both with file `shared.js`, and two modulepreload links carry the same
href. -/
theorem modulepreload_hrefs_distinct_counterexample :
    production sharedFileManifest ["app"] "/static/" =
      some [Tag.modulePreload "/static/a.js", Tag.modulePreload "/static/shared.js",
        Tag.modulePreload "/static/shared.js", Tag.moduleScript "/static/a.js"] ∧
    ¬ (modulePreloadHrefs [Tag.modulePreload "/static/a.js",
        Tag.modulePreload "/static/shared.js", Tag.modulePreload "/static/shared.js",
        Tag.moduleScript "/static/a.js"]).Nodup := by
  decide

/-- C16, amended: in production mode, for every manifest whose entries have pairwise
distinct file paths and every root list, no two modulepreload links carry the same
href, however many import paths or roots reach a module. -/
theorem modulepreload_hrefs_distinct (m : viteManifest) (eps : List String) (b : String)
    (hfiles : (m.map fun p => p.2.File).Nodup) :
    ∃ out, production m eps b = some out ∧ (modulePreloadHrefs out).Nodup := by
  obtain ⟨groups, hprod, hpre, _, _⟩ := production_eq m eps b
  refine ⟨_, hprod, ?_⟩
  rw [modulePreloadHrefs_append, modulePreloadHrefs_entryTags, List.append_nil]
  refine forall₂_nodup ?_ (modulePreloadHrefs_groupTags _ groups hpre.present)
    hpre.fresh_nodup.1
  rintro k1 k2 x ⟨e1, h1, rfl⟩ ⟨e2, h2, hx⟩
  exact key_eq_of_file_eq hfiles h1 h2 (string_append_left_cancel hx)

/-- C16, amended, on a manifest with a cycle, where `a` is reached as a root and as an
import. -/
theorem modulepreload_hrefs_distinct_witness :
    (cyclicManifest.map fun p => p.2.File).Nodup ∧
    ∃ out, production cyclicManifest ["a", "b", "a"] "/static/" = some out ∧
      (modulePreloadHrefs out).Nodup :=
  ⟨by decide, modulepreload_hrefs_distinct cyclicManifest ["a", "b", "a"] "/static/"
    (by decide)⟩

/-! #### C17: preload links before entry tags -/

theorem all_isPreload_groupTags (m : viteManifest) (b : String)
    (groups : List (List String × List String)) :
    (groupTags m b groups).all Tag.isPreload = true := by
  induction groups with
  | nil => rfl
  | cons g gs ih =>
    simp only [groupTags, List.all_append, ih, Bool.and_true, Bool.and_eq_true,
      List.all_eq_true, List.mem_map]
    constructor
    · rintro t ⟨k, _, rfl⟩
      simp only [preloadLink]
      split <;> rfl
    · rintro t ⟨c, _, rfl⟩
      rfl

theorem fresh_sublist (seen css : List String) : (fresh seen css).Sublist css := by
  induction css generalizing seen with
  | nil => exact List.Sublist.slnil
  | cons c rest ih =>
    simp only [fresh]
    split
    · exact List.Sublist.cons _ (ih _)
    · exact List.Sublist.cons₂ _ (ih _)

theorem entryTags_groups (m : viteManifest) (b : String) (eps : List String) :
    ∀ seen, ∃ groups : List (List Tag × List Tag),
      entryTags m b seen eps = concatGroups groups ∧
      List.Forall₂ (IsEntryGroup m b) (presentRoots m eps) groups := by
  induction eps with
  | nil => intro _; exact ⟨[], rfl, List.Forall₂.nil⟩
  | cons r rest ih =>
    intro seen
    cases hget : m.get r with
    | none =>
      obtain ⟨groups, heq, hall⟩ := ih seen
      refine ⟨groups, by simp only [entryTags, hget, heq], ?_⟩
      simpa [presentRoots, hget] using hall
    | some entry =>
      obtain ⟨groups, heq, hall⟩ := ih (seen ++ fresh seen entry.CSS)
      refine ⟨(scriptTags b entry, (fresh seen entry.CSS).map (stylesheetLink b)) :: groups,
        by simp only [entryTags, hget, heq, concatGroups], ?_⟩
      have hgroup : IsEntryGroup m b r
          (scriptTags b entry, (fresh seen entry.CSS).map (stylesheetLink b)) :=
        ⟨entry, hget, rfl, fresh seen entry.CSS, fresh_sublist _ _, rfl⟩
      have hroots : presentRoots m (r :: rest) = r :: presentRoots m rest := by
        simp [presentRoots, hget]
      rw [hroots]
      exact List.Forall₂.cons hgroup hall

/-- C17: in production mode the fragment is a preload part, all of whose chunks are
modulepreload or preload-as-style links, followed by the entry tags; the entry tags
are one group per manifest-present root, in root list order, each group being the
script tag of the root (if its file is a script) and then stylesheet links of the
root. -/
theorem preloads_precede_entry_tags (m : viteManifest) (eps : List String) (b : String) :
    ∃ (out pre : List Tag) (groups : List (List Tag × List Tag)),
      production m eps b = some out ∧
      out = pre ++ concatGroups groups ∧
      pre.all Tag.isPreload = true ∧
      (concatGroups groups).all Tag.isEntryTag = true ∧
      List.Forall₂ (IsEntryGroup m (normalizeBaseURL b)) (presentRoots m eps) groups := by
  obtain ⟨pgroups, hprod, _, _, _⟩ := production_eq m eps b
  obtain ⟨groups, heq, hall⟩ := entryTags_groups m (normalizeBaseURL b) eps []
  refine ⟨_, groupTags m (normalizeBaseURL b) pgroups, groups, hprod, by rw [heq],
    all_isPreload_groupTags _ _ _, ?_, hall⟩
  rw [← heq]
  exact all_isEntryTag_entryTags m _ eps []

/-! #### C19: which roots get a script tag -/

theorem moduleScriptSrcs_preloadLinks (m : viteManifest) (b : String) (ks : List String) :
    moduleScriptSrcs (ks.map (preloadLink m b)) = [] := by
  induction ks with
  | nil => rfl
  | cons k rest ih =>
    simp only [List.map_cons, preloadLink]
    split <;> simpa [moduleScriptSrcs] using ih

theorem moduleScriptSrcs_stylePreloadLinks (b : String) (cs : List String) :
    moduleScriptSrcs (cs.map (stylePreloadLink b)) = [] := by
  induction cs with
  | nil => rfl
  | cons c rest ih => simpa [stylePreloadLink, moduleScriptSrcs] using ih

theorem moduleScriptSrcs_stylesheetLinks (b : String) (cs : List String) :
    moduleScriptSrcs (cs.map (stylesheetLink b)) = [] := by
  induction cs with
  | nil => rfl
  | cons c rest ih => simpa [stylesheetLink, moduleScriptSrcs] using ih

theorem moduleScriptSrcs_groupTags (m : viteManifest) (b : String)
    (groups : List (List String × List String)) :
    moduleScriptSrcs (groupTags m b groups) = [] := by
  induction groups with
  | nil => rfl
  | cons g gs ih =>
    simp [groupTags, moduleScriptSrcs_append, moduleScriptSrcs_preloadLinks,
      moduleScriptSrcs_stylePreloadLinks, ih]

theorem moduleScriptSrcs_entryTags (m : viteManifest) (b : String) (eps : List String) :
    ∀ seen, moduleScriptSrcs (entryTags m b seen eps) = eps.filterMap (scriptSrc m b) := by
  induction eps with
  | nil => intro _; rfl
  | cons r rest ih =>
    intro seen
    cases hget : m.get r with
    | none =>
      have hnone : scriptSrc m b r = none := by simp [scriptSrc, hget]
      simp only [entryTags, hget, ih, List.filterMap_cons, hnone]
    | some entry =>
      simp only [entryTags, hget, moduleScriptSrcs_append, moduleScriptSrcs_stylesheetLinks,
        ih, List.append_nil]
      by_cases hjs : hasSuffix (toLower entry.File) ".js" = true
      · have hsome : scriptSrc m b r = some (b ++ entry.File) := by
          simp [scriptSrc, hget, hjs]
        simp [scriptTags, hjs, moduleScriptSrcs, List.filterMap_cons, hsome]
      · have hnone : scriptSrc m b r = none := by simp [scriptSrc, hget, hjs]
        simp [scriptTags, hjs, moduleScriptSrcs, List.filterMap_cons, hnone]

/-- C19: in production mode the module script tags of the fragment are, in root list
order, those of the roots that are manifest keys and whose entry file, lower-cased,
ends in `.js` (`a.JS` does, `a.css`, `a.mjs` and `a.jsx` do not), each with source base
URL + file; the stylesheet links are those of the `css` of all manifest-present roots,
whatever their file. -/
theorem script_tag_iff_js_suffix (m : viteManifest) (eps : List String) (b : String) :
    (production m eps b).map moduleScriptSrcs =
      some (eps.filterMap fun r =>
        match m.get r with
        | none => none
        | some entry =>
          if hasSuffix (toLower entry.File) ".js" then
            some (normalizeBaseURL b ++ entry.File)
          else none) ∧
    (production m eps b).map stylesheetHrefs =
      some ((dedupFirst (rootCSS m eps)).map fun c => normalizeBaseURL b ++ c) ∧
    hasSuffix (toLower "a.JS") ".js" = true ∧
    hasSuffix (toLower "a.css") ".js" = false ∧
    hasSuffix (toLower "a.mjs") ".js" = false ∧
    hasSuffix (toLower "a.jsx") ".js" = false := by
  obtain ⟨groups, hprod, _, _, _⟩ := production_eq m eps b
  refine ⟨?_, ?_, by decide, by decide, by decide, by decide⟩
  · rw [hprod, Option.map_some', moduleScriptSrcs_append, moduleScriptSrcs_groupTags,
      moduleScriptSrcs_entryTags, List.nil_append]
    rfl
  · rw [hprod, Option.map_some', stylesheetHrefs_append, stylesheetHrefs_groupTags,
      stylesheetHrefs_entryTags, fresh_nil, List.nil_append]

/-! #### C20: every script tag has its modulepreload link -/

theorem mem_moduleScriptSrcs {l : List Tag} {src : String}
    (h : Tag.moduleScript src ∈ l) : src ∈ moduleScriptSrcs l := by
  induction l with
  | nil => cases h
  | cons t ts ih =>
    rcases List.mem_cons.1 h with rfl | hts
    · simp [moduleScriptSrcs]
    · have hrec := ih hts
      cases t <;> simp [moduleScriptSrcs, hrec]

theorem preloadLink_mem_groupTags (m : viteManifest) (b : String)
    (groups : List (List String × List String)) {k : String} (hk : k ∈ groupKeys groups) :
    preloadLink m b k ∈ groupTags m b groups := by
  induction groups with
  | nil => cases hk
  | cons g gs ih =>
    simp only [groupKeys, List.mem_append] at hk
    simp only [groupTags, List.mem_append, List.mem_map]
    rcases hk with hk | hk
    · exact Or.inl (Or.inl ⟨k, hk, rfl⟩)
    · exact Or.inr (ih hk)

theorem prefix_of_append_eq {A B l1 l2 : List Tag} {t : Tag}
    (h : A ++ B = l1 ++ t :: l2) (ht : t ∉ A) : ∃ l1', l1 = A ++ l1' ∧ B = l1' ++ t :: l2 := by
  rcases List.append_eq_append_iff.1 h with ⟨a', h1, h2⟩ | ⟨c', h1, h2⟩
  · exact ⟨a', h1, h2⟩
  · cases c' with
    | nil =>
      refine ⟨[], by simpa using h1.symm, ?_⟩
      simpa using h2.symm
    | cons c cs =>
      simp only [List.cons_append, List.cons.injEq] at h2
      exact absurd (by rw [h1, h2.1]; simp) ht

/-- C20: in production mode every module script tag of the fragment is preceded, in
the same fragment, by a modulepreload link whose href is the source of the script. -/
theorem script_tag_has_earlier_modulepreload (m : viteManifest) (eps : List String)
    (b : String) :
    ∃ out, production m eps b = some out ∧
      ∀ (src : String) (l1 l2 : List Tag), out = l1 ++ Tag.moduleScript src :: l2 →
        Tag.modulePreload src ∈ l1 := by
  obtain ⟨groups, hprod, hpre, _, _⟩ := production_eq m eps b
  refine ⟨_, hprod, fun src l1 l2 hout => ?_⟩
  have hnot : Tag.moduleScript src ∉ groupTags m (normalizeBaseURL b) groups := by
    intro hmem
    have := List.all_eq_true.1 (all_isPreload_groupTags m (normalizeBaseURL b) groups) _ hmem
    cases this
  obtain ⟨l1', hl1, hentry⟩ := prefix_of_append_eq hout hnot
  have hsrc : src ∈ moduleScriptSrcs (entryTags m (normalizeBaseURL b) [] eps) :=
    mem_moduleScriptSrcs (by rw [hentry]; simp)
  rw [moduleScriptSrcs_entryTags, List.mem_filterMap] at hsrc
  obtain ⟨r, hr, hrsrc⟩ := hsrc
  cases hget : m.get r with
  | none => simp [scriptSrc, hget] at hrsrc
  | some entry =>
    have hfile : src = normalizeBaseURL b ++ entry.File := by
      simp only [scriptSrc, hget] at hrsrc
      split at hrsrc
      · exact (Option.some.inj hrsrc).symm
      · cases hrsrc
    have hkey : r ∈ groupKeys groups := by simpa using hpre.closed.1 r hr entry hget
    have hlink := preloadLink_mem_groupTags m (normalizeBaseURL b) groups hkey
    rw [hl1, hfile]
    simp only [preloadLink, hget] at hlink
    exact List.mem_append_left _ hlink

/-- C20, on `TestAssets_Production_SingleEntryPoint_WithCSS`. -/
theorem script_tag_has_earlier_modulepreload_witness :
    production singleEntryManifest ["resources/js/app.js"] "/static/" =
      some ([Tag.modulePreload "/static/assets/app.12345.js",
          Tag.stylePreload "/static/assets/app.67890.css"] ++
        Tag.moduleScript "/static/assets/app.12345.js" ::
          [Tag.stylesheet "/static/assets/app.67890.css"]) ∧
    Tag.modulePreload "/static/assets/app.12345.js" ∈
      [Tag.modulePreload "/static/assets/app.12345.js",
        Tag.stylePreload "/static/assets/app.67890.css"] := by
  have hprod : production singleEntryManifest ["resources/js/app.js"] "/static/" =
      some ([Tag.modulePreload "/static/assets/app.12345.js",
          Tag.stylePreload "/static/assets/app.67890.css"] ++
        Tag.moduleScript "/static/assets/app.12345.js" ::
          [Tag.stylesheet "/static/assets/app.67890.css"]) := by decide
  obtain ⟨out, hout, h⟩ :=
    script_tag_has_earlier_modulepreload singleEntryManifest ["resources/js/app.js"]
      "/static/"
  rw [hprod] at hout
  exact ⟨hprod, h _ _ _ (Option.some.inj hout).symm⟩

/-! ### The cached globals -/

theorem parseEntryPoints_once (cfg : Config) (g : Globals) :
    (parseEntryPoints cfg g).entryPointsOnce = true := by
  unfold parseEntryPoints
  split
  · assumption
  · rfl

theorem parseEntryPoints_of_once (cfg : Config) {g : Globals}
    (h : g.entryPointsOnce = true) : parseEntryPoints cfg g = g := by
  simp [parseEntryPoints, h]

theorem parseEntryPoints_manifestOnce (cfg : Config) (g : Globals) :
    (parseEntryPoints cfg g).manifestOnce = g.manifestOnce := by
  unfold parseEntryPoints
  split <;> rfl

theorem parseEntryPoints_manifestErr (cfg : Config) (g : Globals) :
    (parseEntryPoints cfg g).manifestErr = g.manifestErr := by
  unfold parseEntryPoints
  split <;> rfl

theorem loadManifest_once (lib : Library) (cfg : Config) (g : Globals) :
    (loadManifest lib cfg g).1.manifestOnce = true := by
  unfold loadManifest
  split
  · assumption
  · split
    · rfl
    · split <;> rfl

theorem loadManifest_of_once (lib : Library) (cfg : Config) {g : Globals}
    (h : g.manifestOnce = true) : loadManifest lib cfg g = (g, []) := by
  simp [loadManifest, h]

theorem loadManifest_entryPointsOnce (lib : Library) (cfg : Config) (g : Globals) :
    (loadManifest lib cfg g).1.entryPointsOnce = g.entryPointsOnce := by
  unfold loadManifest
  split
  · rfl
  · split
    · rfl
    · split <;> rfl

theorem loadManifest_reads_le (lib : Library) (cfg : Config) (g : Globals) :
    (loadManifest lib cfg g).2.length ≤ 1 := by
  unfold loadManifest
  split
  · simp
  · split
    · simp
    · split <;> simp

theorem Assets_production_globals (lib : Library) (cfg : Config) (g : Globals)
    (hprod : cfg.appEnv ≠ "local") :
    (Assets lib cfg g).globals = (loadManifest lib cfg (parseEntryPoints cfg g)).1 ∧
    (Assets lib cfg g).reads = (loadManifest lib cfg (parseEntryPoints cfg g)).2 := by
  unfold Assets
  rw [if_neg hprod]
  split <;> exact ⟨rfl, rfl⟩

theorem Assets_production_error (lib : Library) (cfg : Config) (g : Globals)
    (hprod : cfg.appEnv ≠ "local") {err : String}
    (herr : (loadManifest lib cfg (parseEntryPoints cfg g)).1.manifestErr = some err) :
    (Assets lib cfg g).html =
      some ("<!-- ERROR: Could not load Vite manifest: " ++ err ++ " -->") := by
  unfold Assets
  rw [if_neg hprod]
  split
  · next err' h =>
    rw [herr] at h
    cases h
    rfl
  · next h =>
    rw [herr] at h
    cases h

/-! #### C12: the error comment -/

/-- C12: in production mode, whenever `loadManifest` returns an error, `Assets`
returns exactly the comment `<!-- ERROR: Could not load Vite manifest: ` + description
+ ` -->`, whatever the entry points; on a first load the description is
`reading manifest file ` + quoted path + `: ` + cause when the file cannot be read and
`parsing manifest JSON ` + quoted path + `: ` + cause when it cannot be parsed, and
afterwards it is the cached description. -/
theorem manifest_load_failure_comment (lib : Library) (cfg : Config) (g : Globals)
    (hprod : cfg.appEnv ≠ "local") :
    (∀ err, (loadManifest lib cfg (parseEntryPoints cfg g)).1.manifestErr = some err →
      (Assets lib cfg g).html =
        some ("<!-- ERROR: Could not load Vite manifest: " ++ err ++ " -->")) ∧
    (g.manifestOnce = false → ∀ cause,
      lib.readFile (lib.pathBase cfg.manifestPath) = Except.error cause →
      (Assets lib cfg g).html =
        some ("<!-- ERROR: Could not load Vite manifest: " ++
          ("reading manifest file " ++ lib.quoted (lib.pathBase cfg.manifestPath) ++ ": " ++
            cause) ++ " -->")) ∧
    (g.manifestOnce = false → ∀ data cause,
      lib.readFile (lib.pathBase cfg.manifestPath) = Except.ok data →
      lib.unmarshal data = Except.error cause →
      (Assets lib cfg g).html =
        some ("<!-- ERROR: Could not load Vite manifest: " ++
          ("parsing manifest JSON " ++ lib.quoted (lib.pathBase cfg.manifestPath) ++ ": " ++
            cause) ++ " -->")) ∧
    (g.manifestOnce = true → ∀ err, g.manifestErr = some err →
      (Assets lib cfg g).html =
        some ("<!-- ERROR: Could not load Vite manifest: " ++ err ++ " -->")) := by
  refine ⟨fun err herr => Assets_production_error lib cfg g hprod herr, ?_, ?_, ?_⟩
  · intro honce cause hread
    apply Assets_production_error lib cfg g hprod
    have h : (parseEntryPoints cfg g).manifestOnce = false := by
      rw [parseEntryPoints_manifestOnce, honce]
    simp [loadManifest, h, hread]
  · intro honce data cause hread hparse
    apply Assets_production_error lib cfg g hprod
    have h : (parseEntryPoints cfg g).manifestOnce = false := by
      rw [parseEntryPoints_manifestOnce, honce]
    simp [loadManifest, h, hread, hparse]
  · intro honce err herr
    apply Assets_production_error lib cfg g hprod
    have h : (parseEntryPoints cfg g).manifestOnce = true := by
      rw [parseEntryPoints_manifestOnce, honce]
    rw [loadManifest_of_once lib cfg h, parseEntryPoints_manifestErr, herr]

/-- C12, on `TestAssets_Production_ManifestNotFound` and
`TestAssets_Production_InvalidManifest`. -/
theorem manifest_load_failure_comment_witness :
    productionConfig.appEnv ≠ "local" ∧
    (Assets missingFileLibrary productionConfig {}).html =
      some ("<!-- ERROR: Could not load Vite manifest: reading manifest file " ++
        "\"/app/public/build/.vite/manifest.json\": no such file or directory -->") ∧
    (Assets invalidJSONLibrary productionConfig {}).html =
      some ("<!-- ERROR: Could not load Vite manifest: parsing manifest JSON " ++
        "\"/app/public/build/.vite/manifest.json\": unexpected end of JSON input -->") :=
  ⟨by decide,
    (manifest_load_failure_comment missingFileLibrary productionConfig {}
      (by decide)).2.1 rfl "no such file or directory" rfl,
    (manifest_load_failure_comment invalidJSONLibrary productionConfig {}
      (by decide)).2.2.1 rfl "\x7b\"invalid json" "unexpected end of JSON input" rfl rfl⟩

/-! #### C13: the load outcome is cached -/

/-- C13: over the explicit state of the package-level variables, a production-mode
call of `Assets` reads at most one file; every later production-mode call, with any
configuration and any file system, reads no file and leaves the cached manifest, error
and once-flags as they are; if the cached outcome is an error, both calls return the
same error comment. -/
theorem manifest_outcome_cached (lib1 lib2 : Library) (cfg1 cfg2 : Config) (g : Globals)
    (h1 : cfg1.appEnv ≠ "local") (h2 : cfg2.appEnv ≠ "local") :
    (Assets lib1 cfg1 g).reads.length ≤ 1 ∧
    (Assets lib1 cfg1 g).globals.manifestOnce = true ∧
    (Assets lib2 cfg2 (Assets lib1 cfg1 g).globals).reads = [] ∧
    (Assets lib2 cfg2 (Assets lib1 cfg1 g).globals).globals = (Assets lib1 cfg1 g).globals ∧
    (∀ err, (Assets lib1 cfg1 g).globals.manifestErr = some err →
      (Assets lib1 cfg1 g).html =
        some ("<!-- ERROR: Could not load Vite manifest: " ++ err ++ " -->") ∧
      (Assets lib2 cfg2 (Assets lib1 cfg1 g).globals).html =
        some ("<!-- ERROR: Could not load Vite manifest: " ++ err ++ " -->")) := by
  obtain ⟨hg1, hr1⟩ := Assets_production_globals lib1 cfg1 g h1
  have honce : (Assets lib1 cfg1 g).globals.manifestOnce = true := by
    rw [hg1]
    exact loadManifest_once _ _ _
  have heps : (Assets lib1 cfg1 g).globals.entryPointsOnce = true := by
    rw [hg1, loadManifest_entryPointsOnce]
    exact parseEntryPoints_once _ _
  have hparse : parseEntryPoints cfg2 (Assets lib1 cfg1 g).globals =
      (Assets lib1 cfg1 g).globals := parseEntryPoints_of_once cfg2 heps
  have hload : loadManifest lib2 cfg2 (parseEntryPoints cfg2 (Assets lib1 cfg1 g).globals) =
      ((Assets lib1 cfg1 g).globals, []) := by
    rw [hparse]
    exact loadManifest_of_once lib2 cfg2 honce
  obtain ⟨hg2, hr2⟩ := Assets_production_globals lib2 cfg2 (Assets lib1 cfg1 g).globals h2
  refine ⟨?_, honce, ?_, ?_, ?_⟩
  · rw [hr1]
    exact loadManifest_reads_le _ _ _
  · rw [hr2, hload]
  · rw [hg2, hload]
  · intro err herr
    constructor
    · exact Assets_production_error lib1 cfg1 g h1 (by rw [← hg1]; exact herr)
    · exact Assets_production_error lib2 cfg2 _ h2 (by rw [hload]; exact herr)

/-- C13, on a first call that finds a corrupted manifest and a second call made after
the file was replaced by a valid one. -/
theorem manifest_outcome_cached_witness :
    productionConfig.appEnv ≠ "local" ∧
    (Assets invalidJSONLibrary productionConfig {}).reads =
      ["/app/public/build/.vite/manifest.json"] ∧
    (Assets singleEntryLibrary productionConfig
      (Assets invalidJSONLibrary productionConfig {}).globals).reads = [] ∧
    (Assets singleEntryLibrary productionConfig
      (Assets invalidJSONLibrary productionConfig {}).globals).html =
      (Assets invalidJSONLibrary productionConfig {}).html :=
  have h := manifest_outcome_cached invalidJSONLibrary singleEntryLibrary productionConfig
    productionConfig {} (by decide) (by decide)
  have herr := h.2.2.2.2
    ("parsing manifest JSON \"/app/public/build/.vite/manifest.json\": " ++
      "unexpected end of JSON input") (by decide)
  ⟨by decide, by decide, h.2.2.1, herr.2.trans herr.1.symm⟩

/-! #### C14: the development fragment -/

theorem renderAll_append (l1 l2 : List Tag) :
    renderAll (l1 ++ l2) = renderAll l1 ++ renderAll l2 := by
  induction l1 with
  | nil => simp [renderAll]
  | cons t ts ih => simp [renderAll, ih, String.append_assoc]

theorem renderAll_devScripts (d : String) (eps : List String) :
    renderAll (eps.map fun entry => Tag.moduleScript (d ++ "/" ++ entry)) =
      concatStrings (eps.map fun entry =>
        "<script type=\"module\" src=\"" ++ d ++ "/" ++ entry ++ "\"></script>") := by
  induction eps with
  | nil => rfl
  | cons e rest ih =>
    simp only [List.map_cons, renderAll, concatStrings, Tag.render]
    rw [ih]
    simp only [String.append_assoc]

/-- C14: in development mode (`app.env` equal to `local`), for every dev-server URL,
framework flag and entry list, `Assets` returns exactly the React refresh preamble if
and only if the framework flag is `react`, then the `@vite/client` script tag, then one
script tag per entry key in list order, without deduplication; no file is read and the
cached manifest outcome is not touched. -/
theorem development_fragment (lib : Library) (cfg : Config) (g : Globals)
    (eps : List String) (hlocal : cfg.appEnv = "local")
    (heps : (parseEntryPoints cfg g).entryPoints = eps) :
    (Assets lib cfg g).html =
      some ((if cfg.jsFramework = "react" then
          "<script type=\"module\">\n\t\t\timport RefreshRuntime from \"" ++
            cfg.devServerURL ++
            "/@react-refresh\";\n\t\t\tRefreshRuntime.injectIntoGlobalHook(window);\n" ++
            "\t\t\twindow.$RefreshReg$ = () => \x7b\x7d;\n" ++
            "\t\t\twindow.$RefreshSig$ = () => (type) => type;\n" ++
            "\t\t\twindow.__vite_plugin_react_preamble_installed__ = true;\n\t\t\t</script>"
        else "") ++
        "<script type=\"module\" src=\"" ++ cfg.devServerURL ++ "/@vite/client\"></script>" ++
        concatStrings (eps.map fun entry =>
          "<script type=\"module\" src=\"" ++ cfg.devServerURL ++ "/" ++ entry ++
            "\"></script>")) ∧
    (Assets lib cfg g).reads = [] ∧
    (Assets lib cfg g).globals.manifest = g.manifest ∧
    (Assets lib cfg g).globals.manifestErr = g.manifestErr ∧
    (Assets lib cfg g).globals.manifestOnce = g.manifestOnce := by
  subst heps
  unfold Assets
  rw [if_pos hlocal]
  refine ⟨?_, rfl, ?_, parseEntryPoints_manifestErr cfg g,
    parseEntryPoints_manifestOnce cfg g⟩
  · simp only [development, renderAll_append, renderAll_devScripts]
    by_cases hreact : cfg.jsFramework = "react"
    · simp only [hreact, if_true, renderAll, Tag.render, String.append_assoc,
        String.append_empty]
      rfl
    · simp only [hreact, if_false, renderAll, Tag.render, String.append_assoc,
        String.append_empty, String.empty_append]
      rfl
  · unfold parseEntryPoints
    split <;> rfl

set_option maxRecDepth 100000 in
/-- C14, on `TestAssets_LocalEnvironment_ReactFramework`. -/
theorem development_fragment_witness :
    localReactConfig.appEnv = "local" ∧
    (parseEntryPoints localReactConfig {}).entryPoints = ["resources/js/app.jsx"] ∧
    (Assets singleEntryLibrary localReactConfig {}).html =
      some ("<script type=\"module\">\n\t\t\timport RefreshRuntime from \"" ++
        "http://localhost:5173/@react-refresh\";\n" ++
        "\t\t\tRefreshRuntime.injectIntoGlobalHook(window);\n" ++
        "\t\t\twindow.$RefreshReg$ = () => \x7b\x7d;\n" ++
        "\t\t\twindow.$RefreshSig$ = () => (type) => type;\n" ++
        "\t\t\twindow.__vite_plugin_react_preamble_installed__ = true;\n\t\t\t</script>" ++
        "<script type=\"module\" src=\"http://localhost:5173/@vite/client\"></script>" ++
        "<script type=\"module\" src=\"http://localhost:5173/resources/js/app.jsx\">" ++
        "</script>") :=
  ⟨rfl, by decide,
    (development_fragment singleEntryLibrary localReactConfig {} ["resources/js/app.jsx"]
      rfl (by decide)).1.trans rfl⟩

/-! #### C21: the modulepreload link of a file that is not a script -/

/-- C21: in production mode a listed root that is a manifest key gets the
modulepreload link base URL + file whatever the extension of the file; when the
lower-cased file does not end in `.js`, as for `assets/app.css`, the fragment has that
modulepreload link and no module script tag for the file. -/
theorem modulepreload_ignores_extension (m : viteManifest) (eps : List String)
    (b r : String) (e : viteManifestEntry) (hr : r ∈ eps) (hget : m.get r = some e)
    (hext : hasSuffix (toLower e.File) ".js" = false) :
    ∃ out, production m eps b = some out ∧
      Tag.modulePreload (normalizeBaseURL b ++ e.File) ∈ out ∧
      Tag.moduleScript (normalizeBaseURL b ++ e.File) ∉ out := by
  obtain ⟨groups, hprod, hpre, _, _⟩ := production_eq m eps b
  refine ⟨_, hprod, ?_, ?_⟩
  · have hkey : r ∈ groupKeys groups := by simpa using hpre.closed.1 r hr e hget
    have hlink := preloadLink_mem_groupTags m (normalizeBaseURL b) groups hkey
    simp only [preloadLink, hget] at hlink
    exact List.mem_append_left _ hlink
  · intro hmem
    rcases List.mem_append.1 hmem with hpreload | hentry
    · have := List.all_eq_true.1
        (all_isPreload_groupTags m (normalizeBaseURL b) groups) _ hpreload
      cases this
    · have hsrc := mem_moduleScriptSrcs hentry
      rw [moduleScriptSrcs_entryTags, List.mem_filterMap] at hsrc
      obtain ⟨r', _, hsrc'⟩ := hsrc
      cases hget' : m.get r' with
      | none => simp [scriptSrc, hget'] at hsrc'
      | some e' =>
        simp only [scriptSrc, hget'] at hsrc'
        split at hsrc'
        · next hjs =>
          have hfile := string_append_left_cancel (Option.some.inj hsrc')
          rw [hfile, hext] at hjs
          cases hjs
        · cases hsrc'

/-- C21, on a stylesheet-only entry point with file `assets/app.css`. -/
theorem modulepreload_ignores_extension_witness :
    "resources/css/app.css" ∈ ["resources/css/app.css"] ∧
    hasSuffix (toLower "assets/app.css") ".js" = false ∧
    production cssEntryManifest ["resources/css/app.css"] "/static/" =
      some [Tag.modulePreload "/static/assets/app.css"] ∧
    ∃ out, production cssEntryManifest ["resources/css/app.css"] "/static/" = some out ∧
      Tag.modulePreload (normalizeBaseURL "/static/" ++ "assets/app.css") ∈ out ∧
      Tag.moduleScript (normalizeBaseURL "/static/" ++ "assets/app.css") ∉ out :=
  ⟨by decide, by decide, by decide,
    modulepreload_ignores_extension cssEntryManifest ["resources/css/app.css"] "/static/"
      "resources/css/app.css"
      { File := "assets/app.css", Src := "resources/css/app.css", IsEntry := true }
      (by decide) rfl (by decide)⟩

/-! #### C22: the entry point list -/

theorem splitComma_ne_nil (cs : List Char) : splitComma cs ≠ [] := by
  cases cs with
  | nil => simp [splitComma]
  | cons c rest =>
    simp only [splitComma]
    split
    · simp
    · split <;> simp

theorem splitComma_length (cs : List Char) :
    (splitComma cs).length = cs.count ',' + 1 := by
  induction cs with
  | nil => rfl
  | cons c rest ih =>
    simp only [splitComma]
    split
    · next h => exact absurd h (splitComma_ne_nil rest)
    · next w ws h =>
      rw [h] at ih
      by_cases hc : c = ','
      · subst hc
        simp only [if_true, List.length_cons, List.count_cons_self]
        simp only [List.length_cons] at ih
        omega
      · have hne : (c == ',') = false := by simpa using hc
        simp only [hc, if_false, List.length_cons, List.count_cons, hne]
        simp only [List.length_cons] at ih
        simpa using ih

theorem joinComma_splitComma (cs : List Char) : joinComma (splitComma cs) = cs := by
  induction cs with
  | nil => rfl
  | cons c rest ih =>
    simp only [splitComma]
    split
    · next h => exact absurd h (splitComma_ne_nil rest)
    · next w ws h =>
      rw [h] at ih
      by_cases hc : c = ','
      · subst hc
        have hjoin : joinComma ([] :: w :: ws) = ',' :: joinComma (w :: ws) := rfl
        simp only [if_true]
        rw [hjoin, ih]
      · simp only [hc, if_false]
        cases ws with
        | nil =>
          simp only [joinComma] at ih ⊢
          rw [ih]
        | cons w' ws' =>
          simp only [joinComma, List.cons_append] at ih ⊢
          rw [ih]

theorem splitComma_no_comma (cs : List Char) : ∀ w ∈ splitComma cs, ',' ∉ w := by
  induction cs with
  | nil => intro w hw; simp [splitComma] at hw; simp [hw]
  | cons c rest ih =>
    simp only [splitComma]
    split
    · next h => exact absurd h (splitComma_ne_nil rest)
    · next w0 ws h =>
      rw [h] at ih
      by_cases hc : c = ','
      · simp only [hc, if_true, List.mem_cons]
        rintro w (rfl | hw)
        · simp
        · exact ih w (List.mem_cons.2 hw)
      · simp only [hc, if_false, List.mem_cons]
        rintro w (rfl | hw)
        · intro hmem
          rcases List.mem_cons.1 hmem with heq | hmem
          · exact hc heq.symm
          · exact ih w0 (List.mem_cons_self _ _) hmem
        · exact ih w (List.mem_cons_of_mem _ hw)

theorem splitEntryPoints_data (s : String) :
    (splitEntryPoints s).map String.data = splitComma s.data := by
  simp [splitEntryPoints, Function.comp_def]

theorem loadManifest_entryPoints (lib : Library) (cfg : Config) (g : Globals) :
    (loadManifest lib cfg g).1.entryPoints = g.entryPoints := by
  unfold loadManifest
  split
  · rfl
  · split
    · rfl
    · split <;> rfl

theorem Assets_globals_entryPoints (lib : Library) (cfg : Config) (g : Globals) :
    (Assets lib cfg g).globals.entryPoints = (parseEntryPoints cfg g).entryPoints ∧
    (Assets lib cfg g).globals.entryPointsOnce = true := by
  unfold Assets
  by_cases hlocal : cfg.appEnv = "local"
  · rw [if_pos hlocal]
    exact ⟨rfl, parseEntryPoints_once cfg g⟩
  · rw [if_neg hlocal]
    split
    · exact ⟨loadManifest_entryPoints _ _ _,
        (loadManifest_entryPointsOnce _ _ _).trans (parseEntryPoints_once cfg g)⟩
    · exact ⟨loadManifest_entryPoints _ _ _,
        (loadManifest_entryPointsOnce _ _ _).trans (parseEntryPoints_once cfg g)⟩

theorem parseEntryPoints_first (cfg : Config) {g : Globals}
    (hfirst : g.entryPointsOnce = false) :
    (parseEntryPoints cfg g).entryPoints = splitEntryPoints cfg.entryPoints := by
  simp [parseEntryPoints, hfirst]

/-- C22: the entry point list is never empty: on the call of `Assets` that parses it
(in either mode), the list kept in `entryPoints` is not empty, has (number of commas of
the configured string + 1) keys, which contain no comma and, joined with commas, give
the configured string back (untrimmed, in order), and every later call keeps that list;
so when `vite.entry_points` is the empty string the list is the single empty key, and
development mode returns the preamble (for `react`), the `@vite/client` tag and exactly
one more tag, `<script type="module" src="d/"></script>`, for the dev-server URL `d`. -/
theorem entry_point_list_never_empty (lib : Library) (cfg : Config) (g : Globals)
    (hfirst : g.entryPointsOnce = false) :
    (Assets lib cfg g).globals.entryPoints ≠ [] ∧
    (Assets lib cfg g).globals.entryPoints.length = cfg.entryPoints.data.count ',' + 1 ∧
    joinComma ((Assets lib cfg g).globals.entryPoints.map String.data) =
      cfg.entryPoints.data ∧
    (∀ k ∈ (Assets lib cfg g).globals.entryPoints, ',' ∉ k.data) ∧
    (∀ (lib2 : Library) (cfg2 : Config),
      (Assets lib2 cfg2 (Assets lib cfg g).globals).globals.entryPoints =
        (Assets lib cfg g).globals.entryPoints) ∧
    (cfg.entryPoints = "" → (Assets lib cfg g).globals.entryPoints = [""]) ∧
    (cfg.appEnv = "local" → cfg.entryPoints = "" →
      (Assets lib cfg g).html =
        some ((if cfg.jsFramework = "react" then
            "<script type=\"module\">\n\t\t\timport RefreshRuntime from \"" ++
              cfg.devServerURL ++
              "/@react-refresh\";\n\t\t\tRefreshRuntime.injectIntoGlobalHook(window);\n" ++
              "\t\t\twindow.$RefreshReg$ = () => \x7b\x7d;\n" ++
              "\t\t\twindow.$RefreshSig$ = () => (type) => type;\n" ++
              "\t\t\twindow.__vite_plugin_react_preamble_installed__ = true;\n\t\t\t</script>"
          else "") ++
          "<script type=\"module\" src=\"" ++ cfg.devServerURL ++
            "/@vite/client\"></script>" ++
          "<script type=\"module\" src=\"" ++ cfg.devServerURL ++ "/\"></script>")) := by
  have hlist : (Assets lib cfg g).globals.entryPoints = splitEntryPoints cfg.entryPoints := by
    rw [(Assets_globals_entryPoints lib cfg g).1, parseEntryPoints_first cfg hfirst]
  refine ⟨?_, ?_, ?_, ?_, ?_, ?_, ?_⟩
  · rw [hlist]
    intro h
    have := congrArg (List.map String.data) h
    rw [splitEntryPoints_data] at this
    exact splitComma_ne_nil _ this
  · rw [hlist]
    have := congrArg List.length (splitEntryPoints_data cfg.entryPoints)
    rw [List.length_map] at this
    rw [this]
    exact splitComma_length _
  · rw [hlist, splitEntryPoints_data]
    exact joinComma_splitComma _
  · rw [hlist]
    intro k hk
    apply splitComma_no_comma cfg.entryPoints.data
    rw [← splitEntryPoints_data]
    exact List.mem_map_of_mem _ hk
  · intro lib2 cfg2
    rw [(Assets_globals_entryPoints lib2 cfg2 _).1,
      parseEntryPoints_of_once cfg2 (Assets_globals_entryPoints lib cfg g).2]
  · intro hdefault
    rw [hlist, hdefault]
    rfl
  · intro hlocal hdefault
    have hparse : (parseEntryPoints cfg g).entryPoints = [""] := by
      rw [parseEntryPoints_first cfg hfirst, hdefault]
      rfl
    unfold Assets
    rw [if_pos hlocal]
    simp only [hparse, development, renderAll_append, renderAll_devScripts]
    by_cases hreact : cfg.jsFramework = "react"
    · simp only [hreact, if_true, renderAll, Tag.render, List.map_cons, List.map_nil,
        concatStrings, String.append_assoc, String.append_empty]
      rfl
    · simp only [hreact, if_false, renderAll, Tag.render, List.map_cons, List.map_nil,
        concatStrings, String.append_assoc, String.append_empty, String.empty_append]
      rfl

set_option maxRecDepth 100000 in
/-- C22, on the first call with the entry points of
`TestAssets_Production_MultipleEntryPoints` in production mode, and on the first call
with the default configuration in development mode. -/
theorem entry_point_list_never_empty_witness :
    ((Assets singleEntryLibrary multipleEntryConfig {}).globals.entryPoints =
        ["resources/js/app.js", "resources/js/admin.js"] ∧
      (Assets singleEntryLibrary multipleEntryConfig {}).globals.entryPoints.length =
        multipleEntryConfig.entryPoints.data.count ',' + 1) ∧
    (Assets singleEntryLibrary defaultLocalConfig {}).globals.entryPoints = [""] ∧
    (Assets singleEntryLibrary defaultLocalConfig {}).html =
      some ("<script type=\"module\" src=\"http://localhost:5173/@vite/client\"></script>" ++
        "<script type=\"module\" src=\"http://localhost:5173/\"></script>") :=
  have h1 := entry_point_list_never_empty singleEntryLibrary multipleEntryConfig {} rfl
  have h2 := entry_point_list_never_empty singleEntryLibrary defaultLocalConfig {} rfl
  ⟨⟨by decide, h1.2.1⟩, h2.2.2.2.2.2.1 rfl, (h2.2.2.2.2.2.2 rfl rfl).trans rfl⟩

end Vite
